import Mathlib

/-!
Shallow embedding of the growable-array container in `src/vector.h`.

Modelling conventions:
* A heap buffer is a `List (Slot α)` of length `capacity_`; `Slot.raw` is an
  uninitialized element slot, `Slot.live a` a constructed element holding `a`.
* Pointers are allocation identities (`Nat`); `0` plays the role of `nullptr`.
  `operator new` always succeeds and returns a fresh non-null identity
  (`Mach.fresh`), even for a zero-byte request, exactly as guaranteed by the
  C++ allocation functions.  Allocation failure (`std::bad_alloc`) is not
  modelled; the only modelled failure source is element copy construction.
* The element kind follows the `counted` instrumentation of `src/main.cpp`:
  a global countdown (`Mach.cd`) is decremented on every copy construction
  and the copy that drives it to zero throws.  `copyTick` is that logic.
  Element swap is modelled as a pure slot exchange and plain assignment as a
  pure overwrite (the swap-based paths of `insert`/`erase` assume a
  non-throwing swap; every theorem about those paths is stated in a run with
  the countdown disarmed, where the two models coincide).
* `size_t` arithmetic wraps modulo `WORD = 2 ^ 64`; the places where the
  source can wrap (`capacity_ * 3 / 2` in `increase_capacity`, `size_ - 1`
  in `back()`) carry the explicit wrap.
* Out-of-bounds element reads/writes inside `copy_construct_all` and the
  read of `back()` on an empty container are undefined behaviour in the
  source and are mapped to the explicit outcome `ub`.
* Recursion: `push_back` and `push_back_realloc` are mutually recursive in
  the source (a full temporary triggers another reallocation), so the model
  threads an explicit fuel; `none` means the fuel ran out (in particular, a
  run that returns `none` for every fuel diverges).
-/

namespace VectorModel

/-- Width of `size_t`: all `size_t` arithmetic in the source wraps modulo this. -/
def WORD : Nat := 2 ^ 64

/-- One element slot of a heap buffer: raw (uninitialized) memory or a live
(constructed) element. -/
inductive Slot (α : Type) where
  | raw : Slot α
  | live (a : α) : Slot α
deriving DecidableEq

/-- The state of `vector<T>`: the three fields of the C++ object plus the
contents `buf` of the allocation that `data_` points to. -/
structure vector (α : Type) where
  data_ : Nat
  buf : List (Slot α)
  size_ : Nat
  capacity_ : Nat
deriving DecidableEq

/-- Machine state threaded through the operations: the next fresh allocation
identity and the copy-failure countdown of the `counted` harness. -/
structure Mach where
  fresh : Nat
  cd : Nat
deriving DecidableEq

/-- Outcome of a member function call on a `vector`:
normal return (with the vector and machine state after the call and the
return value), an element-copy exception propagating out (with the vector
state after unwinding), a failed `assert`, or undefined behaviour. -/
inductive Out (α ρ : Type) where
  | ok (v : vector α) (m : Mach) (r : ρ) : Out α ρ
  | exn (v : vector α) (m : Mach) : Out α ρ
  | assertFail : Out α ρ
  | ub : Out α ρ
deriving DecidableEq

/-- Outcome of running a constructor: on exception no object exists. -/
inductive CtorRes (α : Type) where
  | ok (v : vector α) (m : Mach) : CtorRes α
  | exn (m : Mach) : CtorRes α
  | ub : CtorRes α
deriving DecidableEq

/-- Construction/destruction events, used to observe the cleanup order of
`copy_construct_all` (indices are destination slots). -/
inductive Ev where
  | ctor (i : Nat) : Ev
  | dtor (i : Nat) : Ev
deriving DecidableEq

/-- Outcome of `copy_construct_all`: final destination buffer, final
countdown and event trace on success or on a propagating copy exception;
`ub` for an out-of-range access or a read of raw memory. -/
inductive CcaRes (α : Type) where
  | ok (cd : Nat) (dst : List (Slot α)) (tr : List Ev) : CcaRes α
  | exn (cd : Nat) (dst : List (Slot α)) (tr : List Ev) : CcaRes α
  | ub : CcaRes α
deriving DecidableEq

/-- One copy construction of the `counted` element kind from `src/main.cpp`:
if the countdown is armed it is decremented, and the copy that makes it hit
zero throws. `error` is the thrown state. -/
def copyTick (cd : Nat) : Except Nat Nat :=
  if cd = 0 then .ok 0
  else if cd = 1 then .error 0
  else .ok (cd - 1)

/-- `copy_construct_all(dst + doff, src + soff, n)` (general, non-trivially
copyable policy, `src/vector.h:24`): construct `n` elements left to right; if
a copy construction throws, destroy the already-constructed elements in
reverse order and re-raise. Reading a raw or out-of-range source slot, or
constructing past the end of the destination allocation, is undefined
behaviour. -/
def copy_construct_all (dst : List (Slot α)) (doff : Nat) (src : List (Slot α))
    (soff : Nat) : Nat → Nat → CcaRes α
  | 0, cd => .ok cd dst []
  | n + 1, cd =>
    match src[soff]? with
    | none => .ub
    | some .raw => .ub
    | some (.live a) =>
      if doff < dst.length then
        match copyTick cd with
        | .error cd1 => .exn cd1 dst []
        | .ok cd1 =>
          match copy_construct_all (dst.set doff (.live a)) (doff + 1) src
              (soff + 1) n cd1 with
          | .ok cd2 d tr => .ok cd2 d (.ctor doff :: tr)
          | .exn cd2 d tr => .exn cd2 (d.set doff .raw) (.ctor doff :: (tr ++ [.dtor doff]))
          | .ub => .ub
      else .ub

/-- `destroy_all(data + off, n)` (`src/vector.h:11`): run the destructor on
`n` consecutive live elements, leaving the slots raw. -/
def destroy_all (buf : List (Slot α)) (off : Nat) : Nat → List (Slot α)
  | 0 => buf
  | n + 1 => destroy_all (buf.set off .raw) (off + 1) n

/-- `std::swap` of the elements in slots `i` and `j` (assumed non-throwing,
see module comment). -/
def swapSlots (buf : List (Slot α)) (i j : Nat) : List (Slot α) :=
  (buf.set i (buf.getD j .raw)).set j (buf.getD i .raw)

/-- The shifting loop of `erase(first, last)` (`src/vector.h:337`): `n` times
`swap(*first, *last); ++first; ++last`. -/
def eraseLoop (buf : List (Slot α)) (first last : Nat) : Nat → List (Slot α)
  | 0 => buf
  | n + 1 => eraseLoop (swapSlots buf first last) (first + 1) (last + 1) n

/-- The shifting loop of the no-growth `insert` path (`src/vector.h:303`):
`k` times `swap(*i, *(i - 1)); --i`, starting at slot `i`. -/
def insertLoop (buf : List (Slot α)) (i : Nat) : Nat → List (Slot α)
  | 0 => buf
  | k + 1 => insertLoop (swapSlots buf i (i - 1)) (i - 1) k

/-- `increase_capacity` (`src/vector.h:389`): `4` from capacity `0`,
otherwise `capacity_ * 3 / 2` in `size_t` arithmetic. -/
def increase_capacity (capacity_ : Nat) : Nat :=
  if capacity_ = 0 then 4 else capacity_ * 3 % WORD / 2

/-- `new_buffer(new_capacity)` (`src/vector.h:410`): assert
`new_capacity >= size_`, allocate a fresh buffer, copy-construct the live
elements into it, then swap it in; the old buffer dies with the temporary.
On a copy exception the vector is untouched and the fresh buffer is freed. -/
def new_buffer (n : Nat) (v : vector α) (m : Mach) : Out α Unit :=
  if n < v.size_ then .assertFail
  else
    match copy_construct_all (List.replicate n Slot.raw) 0 v.buf 0 v.size_ m.cd with
    | .ub => .ub
    | .exn cd1 _ _ => .exn v ⟨m.fresh + 1, cd1⟩
    | .ok cd1 d _ => .ok ⟨m.fresh, d, v.size_, n⟩ ⟨m.fresh + 1, cd1⟩ ()

/-- `reserve(desired_capacity)` (`src/vector.h:222`): return early when the
request is strictly below the current capacity, otherwise rebuild. -/
def reserve (n : Nat) (v : vector α) (m : Mach) : Out α Unit :=
  if n < v.capacity_ then .ok v m ()
  else new_buffer n v m

/-- `shrink_to_fit` (`src/vector.h:231`): no-op when already tight,
otherwise rebuild with capacity `size_`. -/
def shrink_to_fit (v : vector α) (m : Mach) : Out α Unit :=
  if v.capacity_ = v.size_ then .ok v m ()
  else new_buffer v.size_ v m

/-- `clear` (`src/vector.h:240`): destroy all live elements, keep the
buffer. -/
def clear (v : vector α) : vector α :=
  ⟨v.data_, destroy_all v.buf 0 v.size_, 0, v.capacity_⟩

/-- `pop_back` (`src/vector.h:261`): asserts non-emptiness, destroys the
last element. `none` is the failed assert. -/
def pop_back (v : vector α) : Option (vector α) :=
  if v.size_ = 0 then none
  else some ⟨v.data_, v.buf.set (v.size_ - 1) .raw, v.size_ - 1, v.capacity_⟩

/-- `push_back(val)` (`src/vector.h:247`): with spare capacity, placement
copy-construct at slot `size_` (this copy can throw, leaving the vector
unchanged) and increment `size_`; otherwise run `push_back_realloc`
(`src/vector.h:398`, its body inlined here so that the mutual source
recursion `push_back → push_back_realloc → push_back` becomes structural in
the fuel): build a temporary with `increase_capacity()` slots, copy-construct
all elements into it, push the new value onto the temporary, then swap. Any
exception leaves the original vector untouched; the temporary (and on
success the old buffer) is destroyed. -/
def push_back (val : α) : Nat → vector α → Mach → Option (Out α Unit)
  | 0, _, _ => none
  | fuel + 1, v, m =>
    if v.size_ ≠ v.capacity_ then
      match copyTick m.cd with
      | .error cd1 => some (.exn v ⟨m.fresh, cd1⟩)
      | .ok cd1 =>
        some (.ok ⟨v.data_, v.buf.set v.size_ (.live val), v.size_ + 1, v.capacity_⟩
          ⟨m.fresh, cd1⟩ ())
    else
      match new_buffer (increase_capacity v.capacity_) (⟨0, [], 0, 0⟩ : vector α) m with
      | .assertFail => some .assertFail
      | .ub => some .ub
      | .exn _ m1 => some (.exn v m1)
      | .ok tmp0 m1 _ =>
        match copy_construct_all tmp0.buf 0 v.buf 0 v.size_ m1.cd with
        | .ub => some .ub
        | .exn cd1 _ _ => some (.exn v ⟨m1.fresh, cd1⟩)
        | .ok cd1 d _ =>
          match push_back val fuel ⟨tmp0.data_, d, v.size_, tmp0.capacity_⟩ ⟨m1.fresh, cd1⟩ with
          | none => none
          | some (.ok tv tm _) => some (.ok tv tm ())
          | some (.exn _ tm) => some (.exn v tm)
          | some .assertFail => some .assertFail
          | some .ub => some .ub

/-- `push_back_realloc(val)` (`src/vector.h:398`) as a named entry point:
identical to the growth branch of `push_back` above. -/
def push_back_realloc (val : α) (fuel : Nat) (v : vector α) (m : Mach) :
    Option (Out α Unit) :=
  match new_buffer (increase_capacity v.capacity_) (⟨0, [], 0, 0⟩ : vector α) m with
  | .assertFail => some .assertFail
  | .ub => some .ub
  | .exn _ m1 => some (.exn v m1)
  | .ok tmp0 m1 _ =>
    match copy_construct_all tmp0.buf 0 v.buf 0 v.size_ m1.cd with
    | .ub => some .ub
    | .exn cd1 _ _ => some (.exn v ⟨m1.fresh, cd1⟩)
    | .ok cd1 d _ =>
      match push_back val fuel ⟨tmp0.data_, d, v.size_, tmp0.capacity_⟩ ⟨m1.fresh, cd1⟩ with
      | none => none
      | some (.ok tv tm _) => some (.ok tv tm ())
      | some (.exn _ tm) => some (.exn v tm)
      | some .assertFail => some .assertFail
      | some .ub => some .ub

/-- `insert(pos, val)` (`src/vector.h:280`) with `pos = begin() + p`.
Growth path (`size_ == capacity_`): fill a grown temporary with the prefix,
the new value, then the suffix, and swap; any copy exception leaves the
vector untouched. No-growth path: `push_back(back())` — which reads
`data_[size_ - 1]` and is undefined behaviour on an empty vector — then
shift `[pos, old_end)` right by pairwise swaps and overwrite slot `p`. -/
def insert (p : Nat) (val : α) (fuel : Nat) (v : vector α) (m : Mach) :
    Option (Out α Nat) :=
  if v.size_ = v.capacity_ then
    match new_buffer (increase_capacity v.capacity_) (⟨0, [], 0, 0⟩ : vector α) m with
    | .assertFail => some .assertFail
    | .ub => some .ub
    | .exn _ m1 => some (.exn v m1)
    | .ok tmp0 m1 _ =>
      match copy_construct_all tmp0.buf 0 v.buf 0 p m1.cd with
      | .ub => some .ub
      | .exn cd1 _ _ => some (.exn v ⟨m1.fresh, cd1⟩)
      | .ok cd1 d _ =>
        match push_back val fuel ⟨tmp0.data_, d, p, tmp0.capacity_⟩ ⟨m1.fresh, cd1⟩ with
        | none => none
        | some .assertFail => some .assertFail
        | some .ub => some .ub
        | some (.exn _ tm) => some (.exn v tm)
        | some (.ok tmp2 m2 _) =>
          match copy_construct_all tmp2.buf tmp2.size_ v.buf p (v.size_ - p) m2.cd with
          | .ub => some .ub
          | .exn cd3 _ _ => some (.exn v ⟨m2.fresh, cd3⟩)
          | .ok cd3 d3 _ =>
            some (.ok ⟨tmp2.data_, d3, tmp2.size_ + (v.size_ - p), tmp2.capacity_⟩
              ⟨m2.fresh, cd3⟩ p)
  else
    match v.buf[(v.size_ + (WORD - 1)) % WORD]? with
    | none => some .ub
    | some .raw => some .ub
    | some (.live b) =>
      match push_back b fuel v m with
      | none => none
      | some .assertFail => some .assertFail
      | some .ub => some .ub
      | some (.exn v1 m1) => some (.exn v1 m1)
      | some (.ok v1 m1 _) =>
        let d := insertLoop v1.buf (v1.size_ - 1) (v1.size_ - 1 - p)
        some (.ok ⟨v1.data_, d.set p (.live val), v1.size_, v1.capacity_⟩ m1 p)

/-- `erase(first, last)` (`src/vector.h:332`) with `first = begin() + f`,
`last = begin() + l`: shift the tail left by pairwise swaps, set the new
size, destroy the vacated slots, return `first`. -/
def erase (v : vector α) (f l : Nat) : vector α × Nat :=
  let n := v.size_ - l
  let d := eraseLoop v.buf f l n
  (⟨v.data_, destroy_all d (f + n) (v.size_ - (f + n)), f + n, v.capacity_⟩, f)

/-- The copy constructor `vector(vector const&)` (`src/vector.h:131`):
start empty, `new_buffer(other.size())`, copy-construct all of `other`'s
elements, set `size_`. -/
def copy_ctor (other : vector α) (m : Mach) : CtorRes α :=
  match new_buffer other.size_ (⟨0, [], 0, 0⟩ : vector α) m with
  | .assertFail => .ub
  | .ub => .ub
  | .exn _ m1 => .exn m1
  | .ok nb m1 _ =>
    match copy_construct_all nb.buf 0 other.buf 0 other.size_ m1.cd with
    | .ub => .ub
    | .exn cd1 _ _ => .exn ⟨m1.fresh, cd1⟩
    | .ok cd1 d _ => .ok ⟨nb.data_, d, other.size_, other.size_⟩ ⟨m1.fresh, cd1⟩

/-- Is an optional slot a live element? -/
def isLiveSlot : Option (Slot α) → Bool
  | some (.live _) => true
  | _ => false

/-- The representation invariant of `vector<T>` (spec §3/§8): the allocation
holds `capacity_` slots, `0 ≤ size_ ≤ capacity_` with `capacity_` a `size_t`
value, exactly the slots `[0, size_)` are live, the slots
`[size_, capacity_)` are raw, and a null `data_` only occurs with capacity
`0`. -/
def Inv (v : vector α) : Prop :=
  v.buf.length = v.capacity_ ∧
  v.size_ ≤ v.capacity_ ∧
  v.capacity_ < WORD ∧
  (∀ j, j < v.size_ → isLiveSlot v.buf[j]? = true) ∧
  (∀ j, j < v.capacity_ → v.size_ ≤ j → v.buf[j]? = some Slot.raw) ∧
  (v.data_ = 0 → v.capacity_ = 0)

instance instDecidableInv {α : Type} [DecidableEq α] (v : vector α) :
    Decidable (Inv v) := by
  unfold Inv
  infer_instance

/-- The states a single container lineage can reach through the public
interface, together with the machine state: starting from the default
constructor, applying any public operation (normally returning or failing
with a propagated copy exception, all at arbitrary fuel and with the
`counted` failure countdown re-armed arbitrarily between calls).
Iterator-taking operations carry their validity preconditions
(`pos`/`first`/`last` inside `[begin, end]`), and `reserve` takes a
`size_t` argument. -/
inductive Reachable : vector α → Mach → Prop where
  | init (cd : Nat) : Reachable ⟨0, [], 0, 0⟩ ⟨1, cd⟩
  | set_throw_countdown {v : vector α} {f cd : Nat} (cd1 : Nat) :
      Reachable v ⟨f, cd⟩ → Reachable v ⟨f, cd1⟩
  | push_back_ok {v : vector α} {m v1 m1} (val : α) (fuel : Nat) :
      Reachable v m →
      push_back val fuel v m = some (.ok v1 m1 ()) → Reachable v1 m1
  | push_back_exn {v : vector α} {m v1 m1} (val : α) (fuel : Nat) :
      Reachable v m →
      push_back val fuel v m = some (.exn v1 m1) → Reachable v1 m1
  | pop_back_step {v : vector α} {m v1} : Reachable v m →
      pop_back v = some v1 → Reachable v1 m
  | reserve_ok {v : vector α} {m v1 m1} (n : Nat) : n < WORD → Reachable v m →
      reserve n v m = .ok v1 m1 () → Reachable v1 m1
  | reserve_exn {v : vector α} {m v1 m1} (n : Nat) : Reachable v m →
      reserve n v m = .exn v1 m1 → Reachable v1 m1
  | shrink_ok {v : vector α} {m v1 m1} : Reachable v m →
      shrink_to_fit v m = .ok v1 m1 () → Reachable v1 m1
  | shrink_exn {v : vector α} {m v1 m1} : Reachable v m →
      shrink_to_fit v m = .exn v1 m1 → Reachable v1 m1
  | clear_step {v : vector α} {m} : Reachable v m → Reachable (clear v) m
  | insert_ok {v : vector α} {m p val fuel v1 m1 r} : p ≤ v.size_ →
      Reachable v m → insert p val fuel v m = some (.ok v1 m1 r) →
      Reachable v1 m1
  | insert_exn {v : vector α} {m p val fuel v1 m1} : p ≤ v.size_ →
      Reachable v m → insert p val fuel v m = some (.exn v1 m1) →
      Reachable v1 m1
  | erase_step {v : vector α} {m f l} : f ≤ l → l ≤ v.size_ →
      Reachable v m → Reachable (erase v f l).1 m
  | copy_ok {v : vector α} {m v1 m1} : Reachable v m →
      copy_ctor v m = .ok v1 m1 → Reachable v1 m1

/-! ### List helpers -/

theorem set_of_getElem_self {l : List β} {i : Nat} {x : β} (h : l[i]? = some x) :
    l.set i x = l := by
  induction l generalizing i with
  | nil => simp at h
  | cons b t ih =>
    cases i with
    | zero => simp at h; simp [h]
    | succ i => simp at h ⊢; exact ih h

/-! ### copy_construct_all lemmas -/

theorem copyTick_zero : copyTick 0 = .ok 0 := rfl

/-- Characterization of a successful `copy_construct_all` run: every written
index was in range, the destination keeps its length, slots outside
`[doff, doff + n)` are untouched, and the slots `[doff, doff + n)` hold
copies of the source slots `[soff, soff + n)`. -/
theorem cca_ok_spec {α : Type} :
    ∀ {n : Nat} {dst : List (Slot α)} {doff soff cd cd1 : Nat}
      {d : List (Slot α)} {tr : List Ev} {src : List (Slot α)},
    copy_construct_all dst doff src soff n cd = .ok cd1 d tr →
    (∀ k, k < n → doff + k < dst.length) ∧ d.length = dst.length ∧
    (∀ j, j < doff ∨ doff + n ≤ j → d[j]? = dst[j]?) ∧
    (∀ k, k < n → d[doff + k]? = src[soff + k]?) := by
  intro n
  induction n with
  | zero =>
    intro dst doff soff cd cd1 d tr src h
    rw [copy_construct_all] at h
    cases h
    exact ⟨fun k hk => absurd hk (Nat.not_lt_zero k),
      rfl, fun j _ => rfl, fun k hk => absurd hk (Nat.not_lt_zero k)⟩
  | succ n ih =>
    intro dst doff soff cd cd1 d tr src h
    rw [copy_construct_all] at h
    split at h
    · exact absurd h (by simp)
    · exact absurd h (by simp)
    · next a hs =>
      split at h
      · next hd =>
        split at h
        · exact absurd h (by simp)
        · next cd2 ht =>
          split at h
          · next cd3 d3 tr3 hr =>
            injection h with h1 h2 h3
            subst h2
            obtain ⟨ihb, ihl, iho, ihc⟩ := ih hr
            rw [List.length_set] at ihl
            refine ⟨?_, ihl, ?_, ?_⟩
            · intro k hk
              cases k with
              | zero => simpa using hd
              | succ k =>
                have := ihb k (Nat.lt_of_succ_lt_succ hk)
                rw [List.length_set] at this
                omega
            · intro j hj
              have hj1 : j < doff + 1 ∨ doff + 1 + n ≤ j := by omega
              have hne : doff ≠ j := by omega
              rw [iho j hj1, List.getElem?_set_ne hne]
            · intro k hk
              cases k with
              | zero =>
                have h0 : doff < doff + 1 ∨ doff + 1 + n ≤ doff := Or.inl (by omega)
                rw [Nat.add_zero, Nat.add_zero, iho doff h0, hs]
                simp [List.getElem?_set_self', List.getElem?_eq_getElem hd]
              | succ k =>
                have := ihc k (Nat.lt_of_succ_lt_succ hk)
                have e1 : doff + (k + 1) = doff + 1 + k := by omega
                have e2 : soff + (k + 1) = soff + 1 + k := by omega
                rw [e1, e2, this]
          · exact absurd h (by simp)
          · exact absurd h (by simp)
      · exact absurd h (by simp)

/-- With the failure countdown disarmed, a `copy_construct_all` over live
source slots and an in-range destination succeeds with the countdown still
disarmed. -/
theorem cca_cd0_ok {α : Type} :
    ∀ (n : Nat) (dst : List (Slot α)) (doff soff : Nat) (src : List (Slot α)),
    (∀ k, k < n → isLiveSlot src[soff + k]? = true) →
    doff + n ≤ dst.length →
    ∃ d tr, copy_construct_all dst doff src soff n 0 = .ok 0 d tr := by
  intro n
  induction n with
  | zero =>
    intro dst doff soff src _ _
    exact ⟨dst, [], rfl⟩
  | succ n ih =>
    intro dst doff soff src hlive hlen
    have h0 := hlive 0 (Nat.succ_pos n)
    rw [Nat.add_zero] at h0
    cases hs : src[soff]? with
    | none => rw [hs] at h0; simp [isLiveSlot] at h0
    | some s =>
      cases s with
      | raw => rw [hs] at h0; simp [isLiveSlot] at h0
      | live a =>
        have hd : doff < dst.length := by omega
        have hlive1 : ∀ k, k < n → isLiveSlot src[soff + 1 + k]? = true := by
          intro k hk
          have := hlive (k + 1) (Nat.succ_lt_succ hk)
          rwa [show soff + (k + 1) = soff + 1 + k by omega] at this
        have hlen1 : doff + 1 + n ≤ (dst.set doff (Slot.live a)).length := by
          rw [List.length_set]; omega
        obtain ⟨d, tr, hrec⟩ := ih (dst.set doff (Slot.live a)) (doff + 1)
          (soff + 1) src hlive1 hlen1
        refine ⟨d, .ctor doff :: tr, ?_⟩
        rw [copy_construct_all, hs]
        simp only [if_pos hd, copyTick_zero, hrec]

/-- Failure behaviour of `copy_construct_all` on raw destination slots with
countdown `i + 1` (so the copy of index `i` throws): the result re-raises
with every constructed slot destroyed — the destination is exactly as
before — and the trace records the constructions `doff, …, doff + i - 1`
followed by their destructions in reverse order. -/
theorem cca_fail {α : Type} :
    ∀ (i n : Nat) (dst src : List (Slot α)) (doff soff : Nat),
    i < n →
    (∀ k, k < n → isLiveSlot src[soff + k]? = true) →
    (∀ k, k < n → dst[doff + k]? = some Slot.raw) →
    doff + n ≤ dst.length →
    copy_construct_all dst doff src soff n (i + 1) =
      .exn 0 dst (((List.range i).map (fun k => Ev.ctor (doff + k))) ++
        ((List.range i).reverse.map (fun k => Ev.dtor (doff + k)))) := by
  intro i
  induction i with
  | zero =>
    intro n dst src doff soff hin hlive _ hlen
    cases n with
    | zero => omega
    | succ n =>
      have h0 := hlive 0 (Nat.succ_pos n)
      rw [Nat.add_zero] at h0
      cases hs : src[soff]? with
      | none => rw [hs] at h0; simp [isLiveSlot] at h0
      | some s =>
        cases s with
        | raw => rw [hs] at h0; simp [isLiveSlot] at h0
        | live a =>
          have hd : doff < dst.length := by omega
          rw [copy_construct_all, hs]
          simp [if_pos hd, copyTick]
  | succ i ih =>
    intro n dst src doff soff hin hlive hraw hlen
    cases n with
    | zero => omega
    | succ n =>
      have h0 := hlive 0 (Nat.succ_pos n)
      rw [Nat.add_zero] at h0
      cases hs : src[soff]? with
      | none => rw [hs] at h0; simp [isLiveSlot] at h0
      | some s =>
        cases s with
        | raw => rw [hs] at h0; simp [isLiveSlot] at h0
        | live a =>
          have hd : doff < dst.length := by omega
          have hlive1 : ∀ k, k < n → isLiveSlot src[soff + 1 + k]? = true := by
            intro k hk
            have := hlive (k + 1) (Nat.succ_lt_succ hk)
            rwa [show soff + (k + 1) = soff + 1 + k by omega] at this
          have hraw1 : ∀ k, k < n →
              (dst.set doff (Slot.live a))[doff + 1 + k]? = some Slot.raw := by
            intro k hk
            have := hraw (k + 1) (Nat.succ_lt_succ hk)
            rw [show doff + (k + 1) = doff + 1 + k by omega] at this
            rw [List.getElem?_set_ne (by omega), this]
          have hlen1 : doff + 1 + n ≤ (dst.set doff (Slot.live a)).length := by
            rw [List.length_set]; omega
          have hrec := ih n (dst.set doff (Slot.live a)) src (doff + 1)
            (soff + 1) (Nat.lt_of_succ_lt_succ hin) hlive1 hraw1 hlen1
          have htick : copyTick (i + 1 + 1) = .ok (i + 1) := by
            simp [copyTick]
          rw [copy_construct_all, hs]
          simp only [if_pos hd, htick, hrec]
          have hrestore : (dst.set doff (Slot.live a)).set doff Slot.raw = dst := by
            rw [List.set_set]
            exact set_of_getElem_self (by simpa using hraw 0 (Nat.succ_pos n))
          rw [hrestore]
          congr 1
          have hfc : ((fun k => Ev.ctor (doff + k)) ∘ Nat.succ) =
              (fun k => Ev.ctor (doff + 1 + k)) := by
            funext k
            simp only [Function.comp, Nat.succ_eq_add_one]
            rw [show doff + (k + 1) = doff + 1 + k by omega]
          have hgd : ((fun k => Ev.dtor (doff + k)) ∘ Nat.succ) =
              (fun k => Ev.dtor (doff + 1 + k)) := by
            funext k
            simp only [Function.comp, Nat.succ_eq_add_one]
            rw [show doff + (k + 1) = doff + 1 + k by omega]
          rw [List.range_succ_eq_map]
          simp only [List.map_cons, List.map_map, hfc, hgd, List.reverse_cons,
            List.map_append, List.map_reverse, List.cons_append,
            List.append_assoc, Nat.add_zero, List.map_nil]

/-! ### destroy_all, swap and the shifting loops -/

theorem destroy_all_spec {α : Type} :
    ∀ (n : Nat) (buf : List (Slot α)) (off : Nat),
    (destroy_all buf off n).length = buf.length ∧
    (∀ j, j < off ∨ off + n ≤ j → (destroy_all buf off n)[j]? = buf[j]?) ∧
    (∀ j, off ≤ j → j < off + n → j < buf.length →
      (destroy_all buf off n)[j]? = some Slot.raw) := by
  intro n
  induction n with
  | zero =>
    intro buf off
    refine ⟨rfl, fun j _ => rfl, ?_⟩
    intro j h1 h2 _
    omega
  | succ n ih =>
    intro buf off
    rw [destroy_all]
    obtain ⟨ihl, iho, ihi⟩ := ih (buf.set off Slot.raw) (off + 1)
    rw [List.length_set] at ihl ihi
    refine ⟨ihl, ?_, ?_⟩
    · intro j hj
      have hj1 : j < off + 1 ∨ off + 1 + n ≤ j := by omega
      rw [iho j hj1, List.getElem?_set_ne (by omega)]
    · intro j h1 h2 h3
      rcases Nat.eq_or_lt_of_le h1 with he | hl
      · subst he
        rw [iho _ (Or.inl (by omega)), List.getElem?_set_eq_of_lt _ h3]
      · exact ihi j (by omega) (by omega) h3

theorem swapSlots_length {α : Type} (buf : List (Slot α)) (i j : Nat) :
    (swapSlots buf i j).length = buf.length := by
  simp [swapSlots]

theorem swapSlots_other {α : Type} {buf : List (Slot α)} {i j k : Nat}
    (hi : k ≠ i) (hj : k ≠ j) : (swapSlots buf i j)[k]? = buf[k]? := by
  rw [swapSlots, List.getElem?_set_ne (Ne.symm hj), List.getElem?_set_ne (Ne.symm hi)]

theorem getD_eq_of_lt {α : Type} {buf : List (Slot α)} {i : Nat}
    (hi : i < buf.length) : some (buf.getD i Slot.raw) = buf[i]? := by
  rw [List.getD_eq_getElem?_getD, List.getElem?_eq_getElem hi]
  rfl

theorem swapSlots_fst {α : Type} {buf : List (Slot α)} {i j : Nat}
    (hi : i < buf.length) (hj : j < buf.length) :
    (swapSlots buf i j)[i]? = buf[j]? := by
  by_cases he : i = j
  · subst he
    rw [swapSlots, List.getElem?_set_eq_of_lt _ (by rw [List.length_set]; exact hi),
      getD_eq_of_lt hi]
  · rw [swapSlots, List.getElem?_set_ne (Ne.symm he),
      List.getElem?_set_eq_of_lt _ hi, getD_eq_of_lt hj]

theorem swapSlots_snd {α : Type} {buf : List (Slot α)} {i j : Nat}
    (hi : i < buf.length) (hj : j < buf.length) :
    (swapSlots buf i j)[j]? = buf[i]? := by
  rw [swapSlots, List.getElem?_set_eq_of_lt _ (by rw [List.length_set]; exact hj),
    getD_eq_of_lt hi]

theorem eraseLoop_spec {α : Type} :
    ∀ (n : Nat) (buf : List (Slot α)) (f l : Nat),
    f ≤ l → l + n ≤ buf.length →
    (eraseLoop buf f l n).length = buf.length ∧
    (∀ j, j < f → (eraseLoop buf f l n)[j]? = buf[j]?) ∧
    (∀ j, l + n ≤ j → (eraseLoop buf f l n)[j]? = buf[j]?) ∧
    (∀ k, k < n → (eraseLoop buf f l n)[f + k]? = buf[l + k]?) := by
  intro n
  induction n with
  | zero =>
    intro buf f l _ _
    exact ⟨rfl, fun j _ => rfl, fun j _ => rfl, fun k hk => by omega⟩
  | succ n ih =>
    intro buf f l hfl hlen
    rw [eraseLoop]
    have hf : f < buf.length := by omega
    have hl : l < buf.length := by omega
    obtain ⟨ihl, ihlo, ihhi, ihc⟩ := ih (swapSlots buf f l) (f + 1)
      (l + 1) (by omega) (by rw [swapSlots_length]; omega)
    rw [swapSlots_length] at ihl
    refine ⟨ihl, ?_, ?_, ?_⟩
    · intro j hj
      rw [ihlo j (by omega), swapSlots_other (by omega) (by omega)]
    · intro j hj
      rw [ihhi j (by omega), swapSlots_other (by omega) (by omega)]
    · intro k hk
      cases k with
      | zero =>
        simp only [Nat.add_zero]
        rw [ihlo f (by omega), swapSlots_fst hf hl]
      | succ k =>
        have := ihc k (Nat.lt_of_succ_lt_succ hk)
        rw [show f + (k + 1) = f + 1 + k by omega,
          show l + (k + 1) = l + 1 + k by omega, this,
          swapSlots_other (by omega) (by omega)]

theorem insertLoop_spec {α : Type} :
    ∀ (k : Nat) (buf : List (Slot α)) (i : Nat),
    k ≤ i → i < buf.length →
    (insertLoop buf i k).length = buf.length ∧
    (∀ j, j < i - k → (insertLoop buf i k)[j]? = buf[j]?) ∧
    (∀ j, i < j → (insertLoop buf i k)[j]? = buf[j]?) ∧
    (insertLoop buf i k)[i - k]? = buf[i]? ∧
    (∀ j, i - k < j → j ≤ i → (insertLoop buf i k)[j]? = buf[j - 1]?) := by
  intro k
  induction k with
  | zero =>
    intro buf i _ _
    refine ⟨rfl, fun j _ => rfl, fun j _ => rfl, by simp [insertLoop], ?_⟩
    intro j h1 h2
    omega
  | succ k ih =>
    intro buf i hki hi
    rw [insertLoop]
    have hi1 : i - 1 < buf.length := by omega
    obtain ⟨ihl, ihlo, ihhi, ihtop, ihsh⟩ := ih (swapSlots buf i (i - 1))
      (i - 1) (by omega) (by rw [swapSlots_length]; omega)
    rw [swapSlots_length] at ihl
    have hsub : i - 1 - k = i - (k + 1) := by omega
    refine ⟨ihl, ?_, ?_, ?_, ?_⟩
    · intro j hj
      rw [ihlo j (by omega), swapSlots_other (by omega) (by omega)]
    · intro j hj
      rw [ihhi j (by omega), swapSlots_other (by omega) (by omega)]
    · rw [hsub] at ihtop
      rw [ihtop, swapSlots_snd hi hi1]
    · intro j h1 h2
      rcases Nat.lt_or_ge j i with hji | hji
      · have := ihsh j (by omega) (by omega)
        rw [this, swapSlots_other (by omega) (by omega)]
      · have hje : j = i := by omega
        subst hje
        rw [ihhi j (by omega), swapSlots_fst hi hi1]

/-! ### new_buffer lemmas -/

theorem increase_capacity_lt_WORD (c : Nat) : increase_capacity c < WORD := by
  rw [increase_capacity]
  split
  · decide
  · have h1 : c * 3 % WORD < WORD := Nat.mod_lt _ (by decide)
    omega

/-- On the default-constructed temporary, `new_buffer` just allocates. -/
theorem new_buffer_empty (n : Nat) (m : Mach) :
    new_buffer n (⟨0, [], 0, 0⟩ : vector α) m =
      .ok ⟨m.fresh, List.replicate n Slot.raw, 0, n⟩ ⟨m.fresh + 1, m.cd⟩ () := by
  rw [new_buffer, if_neg (Nat.not_lt_zero n)]
  rfl

/-- A propagating copy exception leaves the vector of `new_buffer` untouched
and only burns the allocation that the temporary freed again. -/
theorem new_buffer_exn_eq {n : Nat} {v : vector α} {m : Mach} {v1 : vector α}
    {m1 : Mach} (h : new_buffer n v m = .exn v1 m1) :
    v1 = v ∧ m1.fresh = m.fresh + 1 := by
  rw [new_buffer] at h
  split at h
  · exact absurd h (by simp)
  · split at h
    · exact absurd h (by simp)
    · injection h with h1 h2
      exact ⟨h1.symm, by rw [← h2]⟩
    · exact absurd h (by simp)

/-- Characterization of a normal `new_buffer` return: fresh full-size
allocation at the new pointer, same elements, requested capacity. -/
theorem new_buffer_ok_spec {n : Nat} {v : vector α} {m : Mach} {v1 : vector α}
    {m1 : Mach} (h : new_buffer n v m = .ok v1 m1 ()) :
    v.size_ ≤ n ∧ v1.data_ = m.fresh ∧ v1.size_ = v.size_ ∧ v1.capacity_ = n ∧
    m1.fresh = m.fresh + 1 ∧ v1.buf.length = n ∧
    (∀ k, k < v.size_ → v1.buf[k]? = v.buf[k]?) ∧
    (∀ j, v.size_ ≤ j → j < n → v1.buf[j]? = some Slot.raw) := by
  rw [new_buffer] at h
  split at h
  · exact absurd h (by simp)
  · next hn =>
    split at h
    · exact absurd h (by simp)
    · exact absurd h (by simp)
    · next cd1 d tr hcca =>
      obtain ⟨hb, hl, ho, hc⟩ := cca_ok_spec hcca
      rw [List.length_replicate] at hl
      injection h with h1 h2
      subst h1
      refine ⟨by omega, rfl, rfl, rfl, by rw [← h2], hl, ?_, ?_⟩
      · intro k hk
        simpa using hc k hk
      · intro j h1 h2
        have := ho j (Or.inr (by omega))
        rw [this, List.getElem?_replicate, if_pos h2]

/-- With the countdown disarmed, `new_buffer` succeeds on any invariant
state whenever the assertion `new_capacity >= size_` holds. -/
theorem new_buffer_cd0_ok {n : Nat} {v : vector α} {m : Mach} (hInv : Inv v)
    (hcd : m.cd = 0) (hn : v.size_ ≤ n) :
    ∃ v1, new_buffer n v m = .ok v1 ⟨m.fresh + 1, 0⟩ () := by
  obtain ⟨hlen, hsz, hw, hlive, hraw, hdata⟩ := hInv
  obtain ⟨d, tr, hcca⟩ := cca_cd0_ok v.size_ (List.replicate n Slot.raw)
    0 0 v.buf
    (by intro k hk; simpa using hlive k hk)
    (by rw [List.length_replicate]; omega)
  refine ⟨⟨m.fresh, d, v.size_, n⟩, ?_⟩
  rw [new_buffer, if_neg (by omega), hcd, hcca]

/-! ### push_back lemmas -/

/-- A propagating copy exception leaves `push_back`'s vector untouched
(strong guarantee); the fresh-allocation counter only grows. -/
theorem push_back_exn_eq {α : Type} :
    ∀ {fuel : Nat} {val : α} {v : vector α} {m : Mach} {v1 : vector α} {m1 : Mach},
    push_back val fuel v m = some (.exn v1 m1) → v1 = v ∧ m.fresh ≤ m1.fresh := by
  intro fuel
  induction fuel with
  | zero => intro val v m v1 m1 h; exact absurd h (by simp [push_back])
  | succ fuel ih =>
    intro val v m v1 m1 h
    rw [push_back] at h
    split at h
    · split at h
      · injection h with h1
        injection h1 with h2 h3
        exact ⟨h2.symm, by rw [← h3]⟩
      · exact absurd h (by simp)
    · rw [new_buffer_empty] at h
      simp only at h
      split at h
      · exact absurd h (by simp)
      · next cd1 d tr hcca =>
        injection h with h1
        injection h1 with h2 h3
        subst h3
        exact ⟨h2.symm, by simp⟩
      · next cd1 d tr hcca =>
        split at h
        · exact absurd h (by simp)
        · exact absurd h (by simp)
        · next tv tm hpb =>
          injection h with h1
          injection h1 with h2 h3
          obtain ⟨_, hm⟩ := ih hpb
          subst h3
          exact ⟨h2.symm, by simp at hm ⊢; omega⟩
        · exact absurd h (by simp)
        · exact absurd h (by simp)

/-- Invariant preservation and basic postconditions of a normally returning
`push_back` (at any fuel, any countdown). -/
theorem push_back_ok_spec {α : Type} :
    ∀ {fuel : Nat} {val : α} {v : vector α} {m : Mach} {v1 : vector α} {m1 : Mach},
    Inv v → v.data_ < m.fresh → 0 < m.fresh →
    push_back val fuel v m = some (.ok v1 m1 ()) →
    Inv v1 ∧ v1.data_ < m1.fresh ∧ 0 < m1.fresh ∧ m.fresh ≤ m1.fresh ∧
      v1.size_ = v.size_ + 1 := by
  intro fuel
  induction fuel with
  | zero => intro val v m v1 m1 _ _ _ h; exact absurd h (by simp [push_back])
  | succ fuel ih =>
    intro val v m v1 m1 hInv hfd hf0 h
    obtain ⟨hlen, hsz, hw, hlive, hraw, hdata⟩ := hInv
    rw [push_back] at h
    split at h
    · next hne =>
      split at h
      · exact absurd h (by simp)
      · next cd1 htick =>
        injection h with h1
        injection h1 with h2 h3
        subst h2 h3
        have hlt : v.size_ < v.capacity_ := by omega
        refine ⟨⟨by simpa using hlen, by simpa using hlt, by simpa using hw,
          ?_, ?_, by simpa using hdata⟩, by simpa using hfd, by simpa using hf0,
          by simp, by simp⟩
        · intro j hj
          dsimp only at hj ⊢
          rcases Nat.lt_or_ge j v.size_ with hj2 | hj2
          · rw [List.getElem?_set_ne (by omega)]
            exact hlive j hj2
          · have hje : j = v.size_ := by omega
            subst hje
            rw [List.getElem?_set_eq_of_lt _ (by omega)]
            rfl
        · intro j hj1 hj2
          dsimp only at hj1 hj2 ⊢
          rw [List.getElem?_set_ne (by omega)]
          exact hraw j hj1 (by omega)
    · next hne =>
      rw [new_buffer_empty] at h
      simp only at h
      split at h
      · exact absurd h (by simp)
      · exact absurd h (by simp)
      · next cd1 d tr hcca =>
        obtain ⟨hb, hl, ho, hc⟩ := cca_ok_spec hcca
        rw [List.length_replicate] at hl
        have hsle : v.size_ ≤ increase_capacity v.capacity_ := by
          rcases Nat.eq_zero_or_pos v.size_ with h0 | h0
          · omega
          · have := hb (v.size_ - 1) (by omega)
            rw [List.length_replicate] at this
            omega
        have hInv1 : Inv (⟨m.fresh, d, v.size_, increase_capacity v.capacity_⟩ :
            vector α) := by
          refine ⟨by simpa using hl, by simpa using hsle,
            by simpa using increase_capacity_lt_WORD v.capacity_, ?_, ?_, ?_⟩
          · intro j hj
            dsimp only at hj ⊢
            have := hc j hj
            simp only [Nat.zero_add] at this
            rw [this]
            exact hlive j hj
          · intro j hj1 hj2
            dsimp only at hj1 hj2 ⊢
            have := ho j (Or.inr (by omega))
            rw [this, List.getElem?_replicate, if_pos hj1]
          · intro hz
            dsimp only at hz
            omega
        split at h
        · exact absurd h (by simp)
        · next tv tm hpb =>
          injection h with h1
          injection h1 with h2 h3
          subst h2 h3
          obtain ⟨hI, hd1, hf1, hmono, hsz1⟩ := ih hInv1 (by simp) (by simp) hpb
          dsimp only at hsz1
          exact ⟨hI, hd1, hf1, by simp at hmono; omega, by omega⟩
        · exact absurd h (by simp)
        · exact absurd h (by simp)
        · exact absurd h (by simp)

/-- A full vector sends `push_back` to `push_back_realloc`. -/
theorem push_back_full_step {v : vector α} {m : Mach} (hfull : v.size_ = v.capacity_)
    (val : α) (fuel : Nat) :
    push_back val (fuel + 1) v m = push_back_realloc val fuel v m := by
  rw [push_back, if_neg (fun hc => hc hfull), push_back_realloc]

/-- Unfolding of `push_back_realloc` with the temporary allocation made
explicit. -/
theorem push_back_realloc_eq {v : vector α} {m : Mach} (val : α) (fuel : Nat) :
    push_back_realloc val fuel v m =
      match copy_construct_all
          (List.replicate (increase_capacity v.capacity_) Slot.raw) 0
          v.buf 0 v.size_ m.cd with
      | .ub => some .ub
      | .exn cd1 _ _ => some (.exn v ⟨m.fresh + 1, cd1⟩)
      | .ok cd1 d _ =>
        match push_back val fuel
            ⟨m.fresh, d, v.size_, increase_capacity v.capacity_⟩
            ⟨m.fresh + 1, cd1⟩ with
        | none => none
        | some (.ok tv tm _) => some (.ok tv tm ())
        | some (.exn _ tm) => some (.exn v tm)
        | some .assertFail => some .assertFail
        | some .ub => some .ub := by
  rw [push_back_realloc, new_buffer_empty]

theorem increase_capacity_one : increase_capacity 1 = 1 := by
  rw [increase_capacity]
  decide

/-- One unfolding step of `copy_construct_all` on a single raw slot and a
single live source element. -/
theorem cca_one_raw {e : α} :
    ∀ cd, copy_construct_all [Slot.raw] 0 [Slot.live e] 0 1 cd =
      (match copyTick cd with
       | .error cd1 => .exn cd1 [Slot.raw] []
       | .ok cd1 => .ok cd1 [Slot.live e] [Ev.ctor 0]) := by
  intro cd
  rfl

/-- A full vector of capacity 1 can never make `push_back` return normally:
`increase_capacity 1 = 1`, so the reallocated temporary is full again and the
recursion never gets anywhere. -/
theorem push_back_cap1_not_ok {α : Type} :
    ∀ {fuel : Nat} {val e : α} {p f cd : Nat} {tv : vector α} {tm : Mach},
    push_back val fuel (⟨p, [Slot.live e], 1, 1⟩ : vector α) ⟨f, cd⟩ ≠
      some (.ok tv tm ()) := by
  intro fuel
  induction fuel with
  | zero => intro val e p f cd tv tm h; exact absurd h (by simp [push_back])
  | succ fuel ih =>
    intro val e p f cd tv tm h
    rw [push_back_full_step rfl, push_back_realloc_eq] at h
    dsimp only at h
    rw [increase_capacity_one, List.replicate_one, cca_one_raw] at h
    cases htick : copyTick cd with
    | error cd1 => rw [htick] at h; exact absurd h (by simp)
    | ok cd1 =>
      rw [htick] at h
      dsimp only at h
      split at h
      · exact absurd h (by simp)
      · next tv2 tm2 r2 hpb =>
        cases r2
        exact ih hpb
      · exact absurd h (by simp)
      · exact absurd h (by simp)
      · exact absurd h (by simp)

/-- With the countdown disarmed, `push_back` on a full capacity-1 vector
exhausts any amount of fuel: the source recursion diverges. -/
theorem push_back_cap1_cd0_none {α : Type} :
    ∀ (fuel : Nat) (val e : α) (p f : Nat),
    push_back val fuel (⟨p, [Slot.live e], 1, 1⟩ : vector α) ⟨f, 0⟩ = none := by
  intro fuel
  induction fuel with
  | zero => intro val e p f; simp [push_back]
  | succ fuel ih =>
    intro val e p f
    rw [push_back_full_step rfl, push_back_realloc_eq]
    dsimp only
    rw [increase_capacity_one, List.replicate_one, cca_one_raw]
    rw [show copyTick 0 = Except.ok 0 from rfl]
    dsimp only
    rw [ih val e f (f + 1)]

/-- `push_back` on a vector with spare capacity keeps the capacity (the
in-place branch). -/
theorem push_back_nonfull_cap {fuel : Nat} {val : α} {v : vector α} {m : Mach}
    {v1 : vector α} {m1 : Mach} (hne : v.size_ ≠ v.capacity_)
    (h : push_back val fuel v m = some (.ok v1 m1 ())) :
    v1.capacity_ = v.capacity_ := by
  cases fuel with
  | zero => exact absurd h (by simp [push_back])
  | succ fuel =>
    rw [push_back, if_pos hne] at h
    split at h
    · exact absurd h (by simp)
    · injection h with h1
      injection h1 with h2 h3
      rw [← h2]

/-- Whenever a growth-triggered `push_back` returns normally, the new
capacity is exactly `increase_capacity` of the old one. -/
theorem push_back_grow_cap {fuel : Nat} {val : α} {v : vector α} {m : Mach}
    {v1 : vector α} {m1 : Mach} (hInv : Inv v) (hfull : v.size_ = v.capacity_)
    (h : push_back val fuel v m = some (.ok v1 m1 ())) :
    v1.capacity_ = increase_capacity v.capacity_ := by
  obtain ⟨hlen, hsz, hw, hlive, hraw, hdata⟩ := hInv
  cases fuel with
  | zero => exact absurd h (by simp [push_back])
  | succ fuel =>
    rw [push_back_full_step hfull, push_back_realloc_eq] at h
    split at h
    · exact absurd h (by simp)
    · exact absurd h (by simp)
    · next cd1 d tr hcca =>
      obtain ⟨hb, hl, ho, hc⟩ := cca_ok_spec hcca
      rw [List.length_replicate] at hl
      have hsle : v.size_ ≤ increase_capacity v.capacity_ := by
        rcases Nat.eq_zero_or_pos v.size_ with h0 | h0
        · omega
        · have := hb (v.size_ - 1) (by omega)
          rw [List.length_replicate] at this
          omega
      rcases Nat.lt_or_ge v.size_ (increase_capacity v.capacity_) with hlt | hge
      · split at h
        · exact absurd h (by simp)
        · next tv tm r2 hpb =>
          cases r2
          injection h with h1
          injection h1 with h2 h3
          rw [← h2]
          exact push_back_nonfull_cap (by dsimp only; omega) hpb
        · exact absurd h (by simp)
        · exact absurd h (by simp)
        · exact absurd h (by simp)
      · have hic : increase_capacity v.capacity_ = v.size_ := by omega
        have hc1 : v.capacity_ = 1 := by
          rw [increase_capacity] at hic
          by_cases h0 : v.capacity_ = 0
          · rw [if_pos h0] at hic
            omega
          · rw [if_neg h0] at hic
            have hWv : WORD = 18446744073709551616 := by rw [WORD]; norm_num
            rw [hWv] at hic
            rw [hWv] at hw
            have hb : v.capacity_ * 3 / 18446744073709551616 < 3 :=
              Nat.div_lt_of_lt_mul (by omega)
            have hdm := Nat.div_add_mod (v.capacity_ * 3) 18446744073709551616
            have hdm2 := Nat.div_add_mod (v.capacity_ * 3 % 18446744073709551616) 2
            omega
        have hs1 : v.size_ = 1 := by omega
        have hd1 : d.length = 1 := by omega
        rcases List.length_eq_one.mp hd1 with ⟨x, hx⟩
        have hx0 : d[0]? = v.buf[0]? := by simpa using hc 0 (by omega)
        have hb0 : isLiveSlot v.buf[0]? = true := hlive 0 (by omega)
        rw [← hx0, hx] at hb0
        cases x with
        | raw => simp [isLiveSlot] at hb0
        | live e =>
          rw [hx, hs1, hic, hs1] at h
          split at h
          · exact absurd h (by simp)
          · next tv tm r2 hpb =>
            cases r2
            exact absurd hpb push_back_cap1_not_ok
          · exact absurd h (by simp)
          · exact absurd h (by simp)
          · exact absurd h (by simp)

/-- Unfolding of the growth path of `insert`. -/
theorem insert_grow_eq (p : Nat) (val : α) (fuel : Nat) {v : vector α}
    {m : Mach} (hfull : v.size_ = v.capacity_) :
    insert p val fuel v m =
      match copy_construct_all
          (List.replicate (increase_capacity v.capacity_) Slot.raw) 0
          v.buf 0 p m.cd with
      | .ub => some .ub
      | .exn cd1 _ _ => some (.exn v ⟨m.fresh + 1, cd1⟩)
      | .ok cd1 d _ =>
        match push_back val fuel
            ⟨m.fresh, d, p, increase_capacity v.capacity_⟩
            ⟨m.fresh + 1, cd1⟩ with
        | none => none
        | some .assertFail => some .assertFail
        | some .ub => some .ub
        | some (.exn _ tm) => some (.exn v tm)
        | some (.ok tmp2 m2 _) =>
          match copy_construct_all tmp2.buf tmp2.size_ v.buf p (v.size_ - p)
              m2.cd with
          | .ub => some .ub
          | .exn cd3 _ _ => some (.exn v ⟨m2.fresh, cd3⟩)
          | .ok cd3 d3 _ =>
            some (.ok ⟨tmp2.data_, d3, tmp2.size_ + (v.size_ - p),
              tmp2.capacity_⟩ ⟨m2.fresh, cd3⟩ p) := by
  rw [insert, if_pos hfull, new_buffer_empty]

/-- Unfolding of the no-growth path of `insert`. -/
theorem insert_nogrow_eq (p : Nat) (val : α) (fuel : Nat) {v : vector α}
    {m : Mach} (hne : v.size_ ≠ v.capacity_) :
    insert p val fuel v m =
      match v.buf[(v.size_ + (WORD - 1)) % WORD]? with
      | none => some .ub
      | some .raw => some .ub
      | some (.live b) =>
        match push_back b fuel v m with
        | none => none
        | some .assertFail => some .assertFail
        | some .ub => some .ub
        | some (.exn v1 m1) => some (.exn v1 m1)
        | some (.ok v1 m1 _) =>
          some (.ok ⟨v1.data_,
            (insertLoop v1.buf (v1.size_ - 1) (v1.size_ - 1 - p)).set p
              (.live val), v1.size_, v1.capacity_⟩ m1 p) := by
  rw [insert, if_neg hne]

/-- A propagating copy exception leaves `insert`'s vector untouched, on both
paths; with the invariant, the fresh counter only grows. -/
theorem insert_exn_spec {fuel p : Nat} {val : α} {v : vector α} {m : Mach}
    {v1 : vector α} {m1 : Mach} (hInv : Inv v) (hfd : v.data_ < m.fresh)
    (hf0 : 0 < m.fresh) (hp : p ≤ v.size_)
    (h : insert p val fuel v m = some (.exn v1 m1)) :
    v1 = v ∧ m.fresh ≤ m1.fresh := by
  by_cases hfull : v.size_ = v.capacity_
  · rw [insert_grow_eq p val fuel hfull] at h
    split at h
    · exact absurd h (by simp)
    · next cd1 d tr hcca =>
      injection h with h1
      injection h1 with h2 h3
      subst h3
      exact ⟨h2.symm, by simp⟩
    · next cd1 d tr hcca =>
      obtain ⟨hb, hl, ho, hc⟩ := cca_ok_spec hcca
      rw [List.length_replicate] at hl
      split at h
      · exact absurd h (by simp)
      · exact absurd h (by simp)
      · exact absurd h (by simp)
      · next tv tm hpb =>
        injection h with h1
        injection h1 with h2 h3
        subst h3
        obtain ⟨_, hm⟩ := push_back_exn_eq hpb
        dsimp only at hm
        exact ⟨h2.symm, by omega⟩
      · next tmp2 m2 r2 hpb =>
        cases r2
        have hple : p ≤ increase_capacity v.capacity_ := by
          rcases Nat.eq_zero_or_pos p with h0 | h0
          · omega
          · have := hb (p - 1) (by omega)
            rw [List.length_replicate] at this
            omega
        obtain ⟨hlen, hsz, hw, hlive, hraw, hdata⟩ := hInv
        have hInv1 : Inv (⟨m.fresh, d, p, increase_capacity v.capacity_⟩ :
            vector α) := by
          refine ⟨by simpa using hl, by simpa using hple,
            by simpa using increase_capacity_lt_WORD v.capacity_, ?_, ?_, ?_⟩
          · intro j hj
            dsimp only at hj ⊢
            have := hc j hj
            simp only [Nat.zero_add] at this
            rw [this]
            exact hlive j (by omega)
          · intro j hj1 hj2
            dsimp only at hj1 hj2 ⊢
            have := ho j (Or.inr (by omega))
            rw [this, List.getElem?_replicate, if_pos hj1]
          · intro hz
            dsimp only at hz
            omega
        obtain ⟨_, _, hf2, hmono2, _⟩ :=
          push_back_ok_spec hInv1 (by simp) (by simp) hpb
        dsimp only at hmono2
        split at h
        · exact absurd h (by simp)
        · next cd3 d3 tr3 hcca3 =>
          injection h with h1
          injection h1 with h2 h3
          subst h3
          exact ⟨h2.symm, by dsimp only; omega⟩
        · exact absurd h (by simp)
  · rw [insert_nogrow_eq p val fuel hfull] at h
    split at h
    · exact absurd h (by simp)
    · exact absurd h (by simp)
    · next b hback =>
      split at h
      · exact absurd h (by simp)
      · exact absurd h (by simp)
      · exact absurd h (by simp)
      · next v2 m2 hpb =>
        injection h with h1
        injection h1 with h2 h3
        subst h2 h3
        exact push_back_exn_eq hpb
      · exact absurd h (by simp)

/-- Invariant preservation of a normally returning `insert`. -/
theorem insert_ok_spec {fuel p : Nat} {val : α} {v : vector α} {m : Mach}
    {v1 : vector α} {m1 : Mach} {r : Nat} (hInv : Inv v)
    (hfd : v.data_ < m.fresh) (hf0 : 0 < m.fresh) (hp : p ≤ v.size_)
    (h : insert p val fuel v m = some (.ok v1 m1 r)) :
    Inv v1 ∧ v1.data_ < m1.fresh ∧ 0 < m1.fresh ∧ m.fresh ≤ m1.fresh := by
  obtain ⟨hlen, hsz, hw, hlive, hraw, hdata⟩ := hInv
  by_cases hfull : v.size_ = v.capacity_
  · rw [insert_grow_eq p val fuel hfull] at h
    split at h
    · exact absurd h (by simp)
    · exact absurd h (by simp)
    · next cd1 d tr hcca =>
      obtain ⟨hb, hl, ho, hc⟩ := cca_ok_spec hcca
      rw [List.length_replicate] at hl
      have hple : p ≤ increase_capacity v.capacity_ := by
        rcases Nat.eq_zero_or_pos p with h0 | h0
        · omega
        · have := hb (p - 1) (by omega)
          rw [List.length_replicate] at this
          omega
      have hInv1 : Inv (⟨m.fresh, d, p, increase_capacity v.capacity_⟩ :
          vector α) := by
        refine ⟨by simpa using hl, by simpa using hple,
          by simpa using increase_capacity_lt_WORD v.capacity_, ?_, ?_, ?_⟩
        · intro j hj
          dsimp only at hj ⊢
          have := hc j hj
          simp only [Nat.zero_add] at this
          rw [this]
          exact hlive j (by omega)
        · intro j hj1 hj2
          dsimp only at hj1 hj2 ⊢
          have := ho j (Or.inr (by omega))
          rw [this, List.getElem?_replicate, if_pos hj1]
        · intro hz
          dsimp only at hz
          omega
      split at h
      · exact absurd h (by simp)
      · exact absurd h (by simp)
      · exact absurd h (by simp)
      · exact absurd h (by simp)
      · next tmp2 m2 r2 hpb =>
        cases r2
        obtain ⟨hI2, hd2, hf2, hmono2, hsz2⟩ :=
          push_back_ok_spec hInv1 (by simp) (by simp) hpb
        dsimp only at hmono2 hsz2
        obtain ⟨hlen2, hsz2a, hw2, hlive2, hraw2, hdata2⟩ := hI2
        split at h
        · exact absurd h (by simp)
        · exact absurd h (by simp)
        · next cd3 d3 tr3 hcca3 =>
          obtain ⟨hb3, hl3, ho3, hc3⟩ := cca_ok_spec hcca3
          injection h with h1
          injection h1 with h2 h3 h4
          subst h2 h3
          have hsize1 : tmp2.size_ + (v.size_ - p) ≤ tmp2.capacity_ := by
            rcases Nat.eq_zero_or_pos (v.size_ - p) with h0 | h0
            · omega
            · have := hb3 (v.size_ - p - 1) (by omega)
              omega
          refine ⟨⟨by dsimp only; omega, by dsimp only; omega,
            by dsimp only; omega, ?_, ?_, ?_⟩,
            by dsimp only; omega, by dsimp only; omega, by dsimp only; omega⟩
          · intro j hj
            dsimp only at hj ⊢
            rcases Nat.lt_or_ge j tmp2.size_ with hj2 | hj2
            · rw [ho3 j (Or.inl hj2)]
              exact hlive2 j (by omega)
            · have := hc3 (j - tmp2.size_) (by omega)
              rw [show tmp2.size_ + (j - tmp2.size_) = j by omega] at this
              rw [this]
              exact hlive (p + (j - tmp2.size_)) (by omega)
          · intro j hj1 hj2
            dsimp only at hj1 hj2 ⊢
            rw [ho3 j (Or.inr (by omega))]
            exact hraw2 j (by omega) (by omega)
          · intro hz
            dsimp only at hz
            have := hdata2 hz
            dsimp only
            omega
  · rw [insert_nogrow_eq p val fuel hfull] at h
    split at h
    · exact absurd h (by simp)
    · exact absurd h (by simp)
    · next b hback =>
      split at h
      · exact absurd h (by simp)
      · exact absurd h (by simp)
      · exact absurd h (by simp)
      · exact absurd h (by simp)
      · next v2 m2 r2 hpb =>
        cases r2
        obtain ⟨hI2, hd2, hf2, hmono2, hsz2⟩ :=
          push_back_ok_spec ⟨hlen, hsz, hw, hlive, hraw, hdata⟩ hfd hf0 hpb
        obtain ⟨hlen2, hsz2a, hw2, hlive2, hraw2, hdata2⟩ := hI2
        injection h with h1
        injection h1 with h2 h3 h4
        subst h2 h3
        have hi : v2.size_ - 1 = v.size_ := by omega
        have hik : v.size_ - (v.size_ - p) = p := by omega
        rw [hi] at *
        obtain ⟨hLl, hLlo, hLhi, hLtop, hLsh⟩ :=
          insertLoop_spec (v.size_ - p) v2.buf v.size_
            (by omega) (by omega)
        rw [hik] at hLlo hLtop hLsh
        refine ⟨⟨?_, by dsimp only; omega, by dsimp only; omega, ?_, ?_, ?_⟩,
          by dsimp only; omega, by omega, by omega⟩
        · dsimp only
          rw [List.length_set, hLl, hlen2]
        · intro j hj
          dsimp only at hj ⊢
          rcases Nat.lt_trichotomy j p with hj2 | hj2 | hj2
          · rw [List.getElem?_set_ne (by omega), hLlo j hj2]
            exact hlive2 j (by omega)
          · subst hj2
            rw [List.getElem?_set_eq_of_lt _ (by rw [hLl]; omega)]
            rfl
          · rw [List.getElem?_set_ne (by omega), hLsh j hj2 (by omega)]
            exact hlive2 (j - 1) (by omega)
        · intro j hj1 hj2
          dsimp only at hj1 hj2 ⊢
          rw [List.getElem?_set_ne (by omega), hLhi j (by omega)]
          exact hraw2 j (by omega) (by omega)
        · intro hz
          dsimp only at hz
          have := hdata2 hz
          dsimp only
          omega

/-- `clear` destroys the live prefix and keeps buffer identity and capacity. -/
theorem clear_spec {v : vector α} (hInv : Inv v) :
    (clear v).data_ = v.data_ ∧ (clear v).capacity_ = v.capacity_ ∧
    Inv (clear v) := by
  obtain ⟨hlen, hsz, hw, hlive, hraw, hdata⟩ := hInv
  obtain ⟨hdl, hdo, hdi⟩ := destroy_all_spec v.size_ v.buf 0
  refine ⟨rfl, rfl, ⟨by simpa [clear] using hdl.trans hlen, by simp [clear],
    by simpa [clear] using hw, ?_, ?_, by simpa [clear] using hdata⟩⟩
  · intro j hj
    simp [clear] at hj
  · intro j hj1 hj2
    simp only [clear] at hj1 ⊢
    rcases Nat.lt_or_ge j v.size_ with hj3 | hj3
    · exact hdi j (by omega) (by omega) (by omega)
    · rw [hdo j (Or.inr (by omega))]
      exact hraw j hj1 hj3

/-- `pop_back` on a nonempty vector destroys the last live element. -/
theorem pop_back_spec {v v1 : vector α} (hInv : Inv v)
    (h : pop_back v = some v1) :
    v1.data_ = v.data_ ∧ v1.capacity_ = v.capacity_ ∧ Inv v1 := by
  obtain ⟨hlen, hsz, hw, hlive, hraw, hdata⟩ := hInv
  rw [pop_back] at h
  split at h
  · exact absurd h (by simp)
  · next hne =>
    injection h with h1
    subst h1
    refine ⟨rfl, rfl, ⟨by simpa using hlen, by dsimp only; omega,
      by simpa using hw, ?_, ?_, by simpa using hdata⟩⟩
    · intro j hj
      dsimp only at hj ⊢
      rw [List.getElem?_set_ne (by omega)]
      exact hlive j (by omega)
    · intro j hj1 hj2
      dsimp only at hj1 hj2 ⊢
      rcases Nat.eq_or_lt_of_le hj2 with he | hlt
      · rw [← he, List.getElem?_set_eq_of_lt _ (by omega)]
      · rw [List.getElem?_set_ne (by omega)]
        exact hraw j hj1 (by omega)

/-- Full characterization of `erase(first, last)` on a valid range:
returned position, unchanged identity and capacity, new size, preserved
prefix, left-shifted suffix, and the invariant. -/
theorem erase_spec {v : vector α} {f l : Nat} (hInv : Inv v) (hfl : f ≤ l)
    (hls : l ≤ v.size_) :
    (erase v f l).2 = f ∧ (erase v f l).1.data_ = v.data_ ∧
    (erase v f l).1.capacity_ = v.capacity_ ∧
    (erase v f l).1.size_ = v.size_ - (l - f) ∧
    (∀ j, j < f → (erase v f l).1.buf[j]? = v.buf[j]?) ∧
    (∀ k, k < v.size_ - l → (erase v f l).1.buf[f + k]? = v.buf[l + k]?) ∧
    Inv (erase v f l).1 := by
  obtain ⟨hlen, hsz, hw, hlive, hraw, hdata⟩ := hInv
  obtain ⟨hLl, hLlo, hLhi, hLc⟩ := eraseLoop_spec (v.size_ - l)
    v.buf f l hfl (by omega)
  obtain ⟨hdl, hdo, hdi⟩ := destroy_all_spec
    (v.size_ - (f + (v.size_ - l)))
    (eraseLoop v.buf f l (v.size_ - l)) (f + (v.size_ - l))
  rw [hLl] at hdl hdi
  refine ⟨rfl, rfl, rfl, by dsimp only [erase]; omega, ?_, ?_,
    ⟨by dsimp only [erase]; omega, by dsimp only [erase]; omega,
     by dsimp only [erase]; omega, ?_, ?_, by dsimp only [erase]; omega⟩⟩
  · intro j hj
    dsimp only [erase]
    rw [hdo j (Or.inl (by omega)), hLlo j hj]
  · intro k hk
    dsimp only [erase]
    rw [hdo (f + k) (Or.inl (by omega)), hLc k hk]
  · intro j hj
    dsimp only [erase] at hj ⊢
    rcases Nat.lt_or_ge j f with hj2 | hj2
    · rw [hdo j (Or.inl (by omega)), hLlo j hj2]
      exact hlive j (by omega)
    · have hk := hLc (j - f) (by omega)
      rw [show f + (j - f) = j by omega] at hk
      rw [hdo j (Or.inl (by omega)), hk]
      exact hlive (l + (j - f)) (by omega)
  · intro j hj1 hj2
    dsimp only [erase] at hj1 hj2 ⊢
    rcases Nat.lt_or_ge j v.size_ with hj3 | hj3
    · exact hdi j (by omega) (by omega) (by omega)
    · rw [hdo j (Or.inr (by omega)), hLhi j (by omega)]
      exact hraw j hj1 (by omega)

/-- Characterization of a successful copy construction (`vector(vector
const&)`): fresh pointer, tight capacity `other.size()`, same elements. -/
theorem copy_ctor_ok_spec {v v1 : vector α} {m m1 : Mach}
    (h : copy_ctor v m = .ok v1 m1) :
    v1.data_ = m.fresh ∧ v1.size_ = v.size_ ∧ v1.capacity_ = v.size_ ∧
    m1.fresh = m.fresh + 1 ∧ v1.buf.length = v.size_ ∧
    (∀ k, k < v.size_ → v1.buf[k]? = v.buf[k]?) := by
  rw [copy_ctor, new_buffer_empty] at h
  dsimp only at h
  split at h
  · exact absurd h (by simp)
  · exact absurd h (by simp)
  · next cd1 d tr hcca =>
    obtain ⟨hb, hl, ho, hc⟩ := cca_ok_spec hcca
    rw [List.length_replicate] at hl
    injection h with h1 h2
    subst h1 h2
    exact ⟨rfl, rfl, rfl, rfl, hl, fun k hk => by simpa using hc k hk⟩

/-- Invariant and freshness facts for a successful copy construction. -/
theorem copy_ctor_inv {v v1 : vector α} {m m1 : Mach} (hInv : Inv v)
    (hf0 : 0 < m.fresh) (h : copy_ctor v m = .ok v1 m1) :
    Inv v1 ∧ 0 < m1.fresh ∧ v1.data_ < m1.fresh := by
  obtain ⟨hlen, hsz, hw, hlive, hraw, hdata⟩ := hInv
  obtain ⟨hd, hs, hcap, hm, hbl, hcont⟩ := copy_ctor_ok_spec h
  refine ⟨⟨by omega, by omega, by omega, ?_, ?_, ?_⟩, by omega, by omega⟩
  · intro j hj
    rw [hcont j (by omega)]
    exact hlive j (by omega)
  · intro j hj1 hj2
    omega
  · intro _
    omega

/-- Invariant preservation for a normally returning `new_buffer`. -/
theorem new_buffer_inv {n : Nat} {v v1 : vector α} {m m1 : Mach}
    (hInv : Inv v) (hf0 : 0 < m.fresh) (hW : n < WORD)
    (h : new_buffer n v m = .ok v1 m1 ()) : Inv v1 := by
  obtain ⟨hlen, hsz, hw, hlive, hraw, hdata⟩ := hInv
  obtain ⟨hsn, hd, hs, hcap, hm, hbl, hcont, hnew⟩ := new_buffer_ok_spec h
  refine ⟨by omega, by omega, by omega, ?_, ?_, ?_⟩
  · intro j hj
    rw [hcont j (by omega)]
    exact hlive j (by omega)
  · intro j hj1 hj2
    exact hnew j (by omega) (by omega)
  · intro _
    omega

/-- Every reachable state satisfies the representation invariant, the fresh
counter is positive, and the vector's allocation predates it. -/
theorem reachable_inv {v : vector α} {m : Mach} (h : Reachable v m) :
    Inv v ∧ 0 < m.fresh ∧ v.data_ < m.fresh := by
  induction h with
  | init cd =>
    refine ⟨⟨rfl, Nat.le_refl 0, by norm_num [WORD], ?_, ?_, fun _ => rfl⟩,
      Nat.one_pos, Nat.one_pos⟩
    · intro j hj
      exact absurd hj (Nat.not_lt_zero j)
    · intro j hj1 hj2
      exact absurd hj1 (Nat.not_lt_zero j)
  | set_throw_countdown cd1 hr ih =>
    exact ⟨ih.1, ih.2.1, ih.2.2⟩
  | push_back_ok val fuel hr hok ih =>
    obtain ⟨hI, hd, hf, hmono, hsz⟩ := push_back_ok_spec ih.1 ih.2.2 ih.2.1 hok
    exact ⟨hI, hf, hd⟩
  | push_back_exn val fuel hr hexn ih =>
    obtain ⟨he, hm⟩ := push_back_exn_eq hexn
    subst he
    exact ⟨ih.1, by omega, by omega⟩
  | pop_back_step hr hpop ih =>
    obtain ⟨hd, hcap, hI⟩ := pop_back_spec ih.1 hpop
    exact ⟨hI, ih.2.1, by omega⟩
  | reserve_ok n hn hr hok ih =>
    rw [reserve] at hok
    split at hok
    · injection hok with h1 h2
      subst h1 h2
      exact ih
    · obtain ⟨hsn, hd, hs, hcap, hm, hbl, hcont, hnew⟩ := new_buffer_ok_spec hok
      exact ⟨new_buffer_inv ih.1 ih.2.1 hn hok, by omega, by omega⟩
  | reserve_exn n hr hexn ih =>
    rw [reserve] at hexn
    split at hexn
    · exact absurd hexn (by simp)
    · obtain ⟨he, hm⟩ := new_buffer_exn_eq hexn
      subst he
      exact ⟨ih.1, by omega, by omega⟩
  | @shrink_ok v m v1 m1 hr hok ih =>
    rw [shrink_to_fit] at hok
    split at hok
    · injection hok with h1 h2
      subst h1 h2
      exact ih
    · obtain ⟨hsn, hd, hs, hcap, hm, hbl, hcont, hnew⟩ := new_buffer_ok_spec hok
      have hW : v.size_ < WORD := by
        obtain ⟨_, hsz, hw, _, _, _⟩ := ih.1
        omega
      exact ⟨new_buffer_inv ih.1 ih.2.1 hW hok, by omega, by omega⟩
  | shrink_exn hr hexn ih =>
    rw [shrink_to_fit] at hexn
    split at hexn
    · exact absurd hexn (by simp)
    · obtain ⟨he, hm⟩ := new_buffer_exn_eq hexn
      subst he
      exact ⟨ih.1, by omega, by omega⟩
  | clear_step hr ih =>
    obtain ⟨hd, hcap, hI⟩ := clear_spec ih.1
    exact ⟨hI, ih.2.1, by omega⟩
  | insert_ok hp hr hok ih =>
    obtain ⟨hI, hd, hf, hmono⟩ := insert_ok_spec ih.1 ih.2.2 ih.2.1 hp hok
    exact ⟨hI, hf, hd⟩
  | insert_exn hp hr hexn ih =>
    obtain ⟨he, hm⟩ := insert_exn_spec ih.1 ih.2.2 ih.2.1 hp hexn
    subst he
    exact ⟨ih.1, by omega, by omega⟩
  | erase_step hfl hls hr ih =>
    obtain ⟨hret, hd, hcap, hs, hpre, hshift, hI⟩ := erase_spec ih.1 hfl hls
    exact ⟨hI, ih.2.1, by omega⟩
  | copy_ok hr hok ih =>
    obtain ⟨hI, hf, hd⟩ := copy_ctor_inv ih.1 ih.2.1 hok
    exact ⟨hI, hf, hd⟩

/-- A propagating copy exception leaves `insert`'s vector untouched (both
paths, no side conditions). -/
theorem insert_exn_v_eq {fuel p : Nat} {val : α} {v : vector α} {m : Mach}
    {v1 : vector α} {m1 : Mach}
    (h : insert p val fuel v m = some (.exn v1 m1)) : v1 = v := by
  by_cases hfull : v.size_ = v.capacity_
  · rw [insert_grow_eq p val fuel hfull] at h
    split at h
    · exact absurd h (by simp)
    · next cd1 d tr hcca =>
      injection h with h1
      injection h1 with h2 h3
      exact h2.symm
    · next cd1 d tr hcca =>
      split at h
      · exact absurd h (by simp)
      · exact absurd h (by simp)
      · exact absurd h (by simp)
      · next tv tm hpb =>
        injection h with h1
        injection h1 with h2 h3
        exact h2.symm
      · next tmp2 m2 r2 hpb =>
        split at h
        · exact absurd h (by simp)
        · next cd3 d3 tr3 hcca3 =>
          injection h with h1
          injection h1 with h2 h3
          exact h2.symm
        · exact absurd h (by simp)
  · rw [insert_nogrow_eq p val fuel hfull] at h
    split at h
    · exact absurd h (by simp)
    · exact absurd h (by simp)
    · next b hback =>
      split at h
      · exact absurd h (by simp)
      · exact absurd h (by simp)
      · exact absurd h (by simp)
      · next v2 m2 hpb =>
        injection h with h1
        injection h1 with h2 h3
        subst h2
        exact (push_back_exn_eq hpb).1
      · exact absurd h (by simp)

/-! ### Claims -/

/-- C1: strong exception safety of the capacity-changing operations — if
`reserve`, `shrink_to_fit`, a growth-triggered `push_back` (called with
`size_ == capacity_`), or the growth path of `insert` fails because an
element copy construction raises an error, then after the failure
propagates, the container (size, capacity, data pointer and all live
element values) is exactly what it was before the call. -/
theorem C1_strong_exception_safety {α : Type} (v : vector α) (m : Mach) :
    (∀ n v1 m1, reserve n v m = .exn v1 m1 → v1 = v) ∧
    (∀ v1 m1, shrink_to_fit v m = .exn v1 m1 → v1 = v) ∧
    (∀ fuel val v1 m1, v.size_ = v.capacity_ →
      push_back val fuel v m = some (.exn v1 m1) → v1 = v) ∧
    (∀ fuel p val v1 m1, v.size_ = v.capacity_ →
      insert p val fuel v m = some (.exn v1 m1) → v1 = v) := by
  refine ⟨?_, ?_, ?_, ?_⟩
  · intro n v1 m1 h
    rw [reserve] at h
    split at h
    · exact absurd h (by simp)
    · exact (new_buffer_exn_eq h).1
  · intro v1 m1 h
    rw [shrink_to_fit] at h
    split at h
    · exact absurd h (by simp)
    · exact (new_buffer_exn_eq h).1
  · intro fuel val v1 m1 _ h
    exact (push_back_exn_eq h).1
  · intro fuel p val v1 m1 _ h
    exact insert_exn_v_eq h

/-- C1 witness: a concrete failing `reserve` (countdown 1) and a concrete
failing growth `push_back` (countdown 2) both hand back the untouched
vector. -/
theorem C1_witness :
    ((⟨1, [Slot.live 9], 1, 1⟩ : vector Nat) = ⟨1, [Slot.live 9], 1, 1⟩) ∧
    ((⟨1, [Slot.live 5, Slot.live 6], 2, 2⟩ : vector Nat) =
      ⟨1, [Slot.live 5, Slot.live 6], 2, 2⟩) :=
  ⟨(C1_strong_exception_safety (⟨1, [Slot.live 9], 1, 1⟩ : vector Nat)
      ⟨2, 1⟩).1 5 ⟨1, [Slot.live 9], 1, 1⟩ ⟨3, 0⟩ (by decide),
   (C1_strong_exception_safety (⟨1, [Slot.live 5, Slot.live 6], 2, 2⟩ :
      vector Nat) ⟨2, 2⟩).2.2.1 3 9 ⟨1, [Slot.live 5, Slot.live 6], 2, 2⟩
      ⟨3, 0⟩ rfl (by decide)⟩

/-- C2 counterexample: `reserve` compares with strict `<`, so a request for
exactly the current capacity is NOT a no-op — it reallocates. The state
(capacity 2, two elements, allocation id 1) is reachable; `reserve 2`
returns normally with the same size, capacity and elements but a NEW data
pointer (id 2 ≠ 1), contradicting the claim for `n` equal to the capacity. -/
theorem C2_counterexample :
    Reachable (⟨1, [Slot.live 5, Slot.live 6], 2, 2⟩ : vector Nat) ⟨2, 0⟩ ∧
    reserve 2 (⟨1, [Slot.live 5, Slot.live 6], 2, 2⟩ : vector Nat) ⟨2, 0⟩ =
      .ok ⟨2, [Slot.live 5, Slot.live 6], 2, 2⟩ ⟨3, 0⟩ () ∧
    (⟨2, [Slot.live 5, Slot.live 6], 2, 2⟩ : vector Nat).data_ ≠
      (⟨1, [Slot.live 5, Slot.live 6], 2, 2⟩ : vector Nat).data_ := by
  refine ⟨?_, by decide, by decide⟩
  have r1 : Reachable (⟨1, [Slot.raw, Slot.raw], 0, 2⟩ : vector Nat) ⟨2, 0⟩ :=
    Reachable.reserve_ok 2 (by decide) (Reachable.init 0) (by decide)
  have r2 : Reachable (⟨1, [Slot.live 5, Slot.raw], 1, 2⟩ : vector Nat) ⟨2, 0⟩ :=
    Reachable.push_back_ok 5 1 r1 (by decide)
  exact Reachable.push_back_ok 6 1 r2 (by decide)

/-- C2 amended: `reserve n` with `n` strictly below the capacity is an exact
no-op; with `n` greater than or EQUAL to the capacity it rebuilds — a fresh
buffer (new data pointer) of capacity exactly `n`, same size and element
values. -/
theorem C2_reserve_amended {α : Type} {v : vector α} {m : Mach} (hInv : Inv v)
    (hcd : m.cd = 0) (hfd : v.data_ < m.fresh) :
    (∀ n, n < v.capacity_ → reserve n v m = .ok v m ()) ∧
    (∀ n, v.capacity_ ≤ n →
      ∃ v1, reserve n v m = .ok v1 ⟨m.fresh + 1, 0⟩ () ∧
        v1.data_ = m.fresh ∧ v1.data_ ≠ v.data_ ∧ v1.size_ = v.size_ ∧
        v1.capacity_ = n ∧ ∀ k, k < v.size_ → v1.buf[k]? = v.buf[k]?) := by
  constructor
  · intro n hn
    rw [reserve, if_pos hn]
  · intro n hn
    have hsn : v.size_ ≤ n := le_trans hInv.2.1 hn
    obtain ⟨v1, hrun⟩ := new_buffer_cd0_ok (n := n) hInv hcd hsn
    obtain ⟨_, hd, hs, hcap, _, _, hcont, _⟩ := new_buffer_ok_spec hrun
    refine ⟨v1, ?_, hd, by omega, hs, hcap, hcont⟩
    rw [reserve, if_neg (Nat.not_lt.mpr hn)]
    exact hrun

/-- C2 witness: on a reachable-shape state with capacity 2 and one element,
`reserve 1` is an exact no-op and `reserve 3` rebuilds at capacity 3. -/
theorem C2_witness :
    (reserve 1 (⟨1, [Slot.live 5, Slot.raw], 1, 2⟩ : vector Nat) ⟨2, 0⟩ =
      .ok ⟨1, [Slot.live 5, Slot.raw], 1, 2⟩ ⟨2, 0⟩ ()) ∧
    ((⟨2, [Slot.live 5, Slot.raw, Slot.raw], 1, 3⟩ : vector Nat).capacity_ = 3) := by
  have h := C2_reserve_amended (v := ⟨1, [Slot.live 5, Slot.raw], 1, 2⟩)
    (m := ⟨2, 0⟩) (by decide) rfl (by decide)
  refine ⟨h.1 1 (by decide), ?_⟩
  obtain ⟨v1, hrun, hd, hne, hs, hcap, hcont⟩ := h.2 3 (by decide)
  have h2 : reserve 3 (⟨1, [Slot.live 5, Slot.raw], 1, 2⟩ : vector Nat) ⟨2, 0⟩ =
      .ok ⟨2, [Slot.live 5, Slot.raw, Slot.raw], 1, 3⟩ ⟨3, 0⟩ () := by decide
  have h3 := h2.symm.trans hrun
  injection h3 with h4 h5
  rw [h4]
  exact hcap

/-- C3 counterexample: the state reached by `reserve 2` on a fresh container
followed by `shrink_to_fit` has capacity 0 but a NON-null data pointer —
`operator new(0)` returns a non-null pointer, so "data == null iff
capacity == 0" fails in this reachable state. -/
theorem C3_counterexample :
    Reachable (⟨2, [], 0, 0⟩ : vector Nat) ⟨3, 0⟩ ∧
    (⟨2, [], 0, 0⟩ : vector Nat).capacity_ = 0 ∧
    (⟨2, [], 0, 0⟩ : vector Nat).data_ ≠ 0 := by
  refine ⟨?_, by decide, by decide⟩
  have r1 : Reachable (⟨1, [Slot.raw, Slot.raw], 0, 2⟩ : vector Nat) ⟨2, 0⟩ :=
    Reachable.reserve_ok 2 (by decide) (Reachable.init 0) (by decide)
  exact Reachable.shrink_ok r1 (by decide)

/-- C3 amended: in every reachable state a null data pointer implies
capacity 0 (the pointer is null only in the never-allocated default state);
the converse direction fails, since a zero-capacity rebuild (shrink of an
empty container with spare capacity, or a copy of an empty container)
installs a non-null zero-size allocation. -/
theorem C3_null_amended {α : Type} {v : vector α} {m : Mach}
    (h : Reachable v m) : v.data_ = 0 → v.capacity_ = 0 :=
  (reachable_inv h).1.2.2.2.2.2

/-- C3 witness: the amended direction applied at the default-constructed
state. -/
theorem C3_witness : (⟨0, [], 0, 0⟩ : vector Nat).capacity_ = 0 :=
  C3_null_amended (Reachable.init 0) rfl

/-- C4: the code violates termination. The state with `size_ == capacity_
== 1` is reachable (`reserve(1)` then `push_back`), `increase_capacity`
does NOT strictly increase capacity there (`1 * 3 / 2 == 1`), and
growth-triggered `push_back` (with no failure injected) exhausts every
fuel bound — the source recursion `push_back → push_back_realloc →
tmp.push_back → …` never terminates. -/
theorem C4_nontermination :
    Reachable (⟨1, [Slot.live 7], 1, 1⟩ : vector Nat) ⟨2, 0⟩ ∧
    increase_capacity 1 = 1 ∧
    (∀ fuel (val p f e : Nat),
      push_back val fuel (⟨p, [Slot.live e], 1, 1⟩ : vector Nat) ⟨f, 0⟩ =
        none) := by
  refine ⟨?_, increase_capacity_one,
    fun fuel val p f e => push_back_cap1_cd0_none fuel val e p f⟩
  have r1 : Reachable (⟨1, [Slot.raw], 0, 1⟩ : vector Nat) ⟨2, 0⟩ :=
    Reachable.reserve_ok 1 (by decide) (Reachable.init 0) (by decide)
  exact Reachable.push_back_ok 7 1 r1 (by decide)

/-- C5: the exact growth law — whenever a `push_back` that was called with
`size_ == capacity_` returns normally, the new capacity is exactly 4 from
capacity 0 and exactly `capacity_ * 3 / 2` computed in the machine word
size otherwise (wrap-around applies through the `% 2 ^ 64`). -/
theorem C5_growth_law {α : Type} {fuel : Nat} {val : α} {v : vector α}
    {m : Mach} {v1 : vector α} {m1 : Mach} (hInv : Inv v)
    (hfull : v.size_ = v.capacity_)
    (h : push_back val fuel v m = some (.ok v1 m1 ())) :
    v1.capacity_ =
      if v.capacity_ = 0 then 4 else v.capacity_ * 3 % 2 ^ 64 / 2 := by
  rw [push_back_grow_cap hInv hfull h, increase_capacity]
  rfl

/-- C5 witness: growing a full capacity-2 vector yields capacity 3
(`2 * 3 / 2`). -/
theorem C5_witness :
    (⟨2, [Slot.live 5, Slot.live 6, Slot.live 9], 3, 3⟩ : vector Nat).capacity_ =
      if (2 : Nat) = 0 then 4 else 2 * 3 % 2 ^ 64 / 2 :=
  @C5_growth_law Nat 3 9 ⟨1, [Slot.live 5, Slot.live 6], 2, 2⟩ ⟨2, 0⟩
    ⟨2, [Slot.live 5, Slot.live 6, Slot.live 9], 3, 3⟩ ⟨3, 0⟩
    (by decide) rfl (by decide)

/-- C6: the general policy of `copy_construct_all(dst, src, n)` — here with
the `counted` countdown set to `i + 1`, which makes exactly the copy of
index `i < n` throw — destroys the `i` elements it had constructed in
reverse order (`i - 1` down to `0`, recorded in the event trace), re-raises
the same error, and leaves the destination exactly as it was: with the raw
precondition, zero live elements in `dst[0..n)`. -/
theorem C6_copy_unwind {α : Type} {dst src : List (Slot α)} {n i : Nat}
    (hin : i < n)
    (hlive : ∀ k, k < n → isLiveSlot src[k]? = true)
    (hraw : ∀ k, k < n → dst[k]? = some Slot.raw)
    (hlen : n ≤ dst.length) :
    copy_construct_all dst 0 src 0 n (i + 1) =
      .exn 0 dst (((List.range i).map Ev.ctor) ++
        ((List.range i).reverse.map Ev.dtor)) := by
  have h := cca_fail i n dst src 0 0 hin
    (by intro k hk; simpa using hlive k hk)
    (by intro k hk; simpa using hraw k hk)
    (by omega)
  simpa using h

/-- C6 witness: three raw slots, three live sources, countdown 2 — the copy
of index 1 throws; slot 0 is constructed and then destroyed, the
destination is raw again. -/
theorem C6_witness :
    copy_construct_all ([Slot.raw, Slot.raw, Slot.raw] : List (Slot Nat)) 0
      [Slot.live 10, Slot.live 20, Slot.live 30] 0 3 2 =
      .exn 0 [Slot.raw, Slot.raw, Slot.raw] [Ev.ctor 0, Ev.dtor 0] :=
  C6_copy_unwind (i := 1) (by decide) (by decide) (by decide) (by decide)

/-- C7 counterexample: `insert` at `begin()` on an EMPTY container with
spare capacity (reachable via `reserve 4`) is not a correct insertion — the
no-growth path starts with `push_back(back())`, and `back()` on an empty
container reads `data_[size_ - 1]` = `data_[SIZE_MAX]`: undefined
behaviour, not the claimed insertion. -/
theorem C7_counterexample :
    Reachable (⟨1, [Slot.raw, Slot.raw, Slot.raw, Slot.raw], 0, 4⟩ : vector Nat)
      ⟨2, 0⟩ ∧
    insert 0 7 5 (⟨1, [Slot.raw, Slot.raw, Slot.raw, Slot.raw], 0, 4⟩ :
      vector Nat) ⟨2, 0⟩ = some Out.ub :=
  ⟨Reachable.reserve_ok 4 (by decide) (Reachable.init 0) (by decide),
   by decide⟩

/-- C7 amended: for every valid position `p ≤ size_`, `insert(begin() + p,
val)` increases the size by one, places `val` at slot `p`, keeps the slots
before `p` and shifts the slots from `p` onward one to the right, and
returns position `p` — provided the container is NONEMPTY when it has spare
capacity (on an empty container with spare capacity the code reads the
nonexistent last element: undefined behaviour), and, on the growth path,
provided the grown capacity exceeds the old size (which fails only for the
degenerate capacity 1 and for wrap-around capacities, where the call never
returns). -/
theorem C7_insert_amended {α : Type} {v : vector α} {m : Mach} {p : Nat}
    (val : α) (fuel : Nat) (hInv : Inv v) (hcd : m.cd = 0) (hp : p ≤ v.size_)
    (hcase : (1 ≤ v.size_ ∧ v.size_ < v.capacity_) ∨
      (v.size_ = v.capacity_ ∧ v.size_ < increase_capacity v.capacity_)) :
    ∃ v1 m1, insert p val (fuel + 1) v m = some (.ok v1 m1 p) ∧
      v1.size_ = v.size_ + 1 ∧
      v1.buf[p]? = some (Slot.live val) ∧
      (∀ j, j < p → v1.buf[j]? = v.buf[j]?) ∧
      (∀ j, p ≤ j → j < v.size_ → v1.buf[j + 1]? = v.buf[j]?) := by
  obtain ⟨hlen, hsz, hw, hlive, hraw, hdata⟩ := hInv
  rcases hcase with ⟨h1, hlt⟩ | ⟨hfull, hlt⟩
  · have hne : v.size_ ≠ v.capacity_ := by omega
    have hrun := insert_nogrow_eq p val (fuel + 1) (v := v) (m := m) hne
    have hidx : (v.size_ + (WORD - 1)) % WORD = v.size_ - 1 := by
      have hW : 2 ≤ WORD := by norm_num [WORD]
      rw [show v.size_ + (WORD - 1) = WORD + (v.size_ - 1) by omega,
        Nat.add_mod_left, Nat.mod_eq_of_lt (by omega)]
    rw [hidx] at hrun
    have hbl := hlive (v.size_ - 1) (by omega)
    cases hback : v.buf[v.size_ - 1]? with
    | none => rw [hback] at hbl; simp [isLiveSlot] at hbl
    | some s =>
      cases s with
      | raw => rw [hback] at hbl; simp [isLiveSlot] at hbl
      | live b =>
        rw [hback] at hrun
        simp only at hrun
        have hpb : push_back b (fuel + 1) v m =
            some (.ok ⟨v.data_, v.buf.set v.size_ (Slot.live b), v.size_ + 1,
              v.capacity_⟩ ⟨m.fresh, 0⟩ ()) := by
          rw [push_back, if_pos hne, hcd]
          rfl
        rw [hpb] at hrun
        simp only [Nat.add_sub_cancel] at hrun
        obtain ⟨hLl, hLlo, hLhi, hLtop, hLsh⟩ :=
          insertLoop_spec (v.size_ - p) (v.buf.set v.size_ (Slot.live b))
            v.size_ (by omega)
            (by rw [List.length_set]; omega)
        rw [show v.size_ - (v.size_ - p) = p by omega] at hLlo hLtop hLsh
        refine ⟨_, _, hrun, by dsimp only, ?_, ?_, ?_⟩
        · dsimp only
          rw [List.getElem?_set_eq_of_lt _ (by rw [hLl, List.length_set]; omega)]
        · intro j hj
          dsimp only
          rw [List.getElem?_set_ne (by omega), hLlo j hj,
            List.getElem?_set_ne (by omega)]
        · intro j hj1 hj2
          dsimp only
          have hs := hLsh (j + 1) (by omega) (by omega)
          rw [Nat.add_sub_cancel] at hs
          rw [List.getElem?_set_ne (by omega), hs,
            List.getElem?_set_ne (by omega)]
  · have hrun := insert_grow_eq p val (fuel + 1) (v := v) (m := m) hfull
    obtain ⟨d, tr, hcca⟩ := cca_cd0_ok p
      (List.replicate (increase_capacity v.capacity_) Slot.raw)
      0 0 v.buf
      (by intro k hk; simpa using hlive k (by omega))
      (by rw [List.length_replicate]; omega)
    rw [hcd, hcca] at hrun
    simp only at hrun
    obtain ⟨hb1, hl1, ho1, hc1⟩ := cca_ok_spec hcca
    rw [List.length_replicate] at hl1
    have hpb : push_back val (fuel + 1)
        ⟨m.fresh, d, p, increase_capacity v.capacity_⟩ ⟨m.fresh + 1, 0⟩ =
        some (.ok ⟨m.fresh, d.set p (Slot.live val), p + 1,
          increase_capacity v.capacity_⟩ ⟨m.fresh + 1, 0⟩ ()) := by
      rw [push_back, if_pos (show (⟨m.fresh, d, p,
        increase_capacity v.capacity_⟩ : vector α).size_ ≠
        (⟨m.fresh, d, p, increase_capacity v.capacity_⟩ :
          vector α).capacity_ by dsimp only; omega)]
      rfl
    rw [hpb] at hrun
    simp only at hrun
    obtain ⟨d3, tr3, hcca3⟩ := cca_cd0_ok (v.size_ - p)
      (d.set p (Slot.live val)) (p + 1) p v.buf
      (by intro k hk; exact hlive (p + k) (by omega))
      (by rw [List.length_set]; omega)
    rw [hcca3] at hrun
    simp only at hrun
    obtain ⟨hb3, hl3, ho3, hc3⟩ := cca_ok_spec hcca3
    refine ⟨_, _, hrun, by dsimp only; omega, ?_, ?_, ?_⟩
    · dsimp only
      rw [ho3 p (Or.inl (by omega)),
        List.getElem?_set_eq_of_lt _ (by omega)]
    · intro j hj
      dsimp only
      rw [ho3 j (Or.inl (by omega)), List.getElem?_set_ne (by omega)]
      have := hc1 j (by omega)
      simpa using this
    · intro j hj1 hj2
      dsimp only
      have := hc3 (j - p) (by omega)
      rw [show p + 1 + (j - p) = j + 1 by omega,
        show p + (j - p) = j by omega] at this
      exact this

/-- C7 witness: the amended statement run at a nonempty no-growth state —
inserting 99 at position 1 of [10, 20] (capacity 3) yields [10, 99, 20]. -/
theorem C7_witness :
    (⟨1, [Slot.live 10, Slot.live 99, Slot.live 20], 3, 3⟩ :
      vector Nat).size_ = 2 + 1 ∧
    (⟨1, [Slot.live 10, Slot.live 99, Slot.live 20], 3, 3⟩ :
      vector Nat).buf[1]? = some (Slot.live 99) := by
  obtain ⟨v1, m1, hrun, hsz, hat, hlo, hsh⟩ :=
    C7_insert_amended (v := ⟨1, [Slot.live 10, Slot.live 20, Slot.raw], 2, 3⟩)
      (m := ⟨2, 0⟩) (p := 1) 99 0 (by decide) rfl (by decide)
      (Or.inl (by decide))
  have h2 : insert 1 99 1 (⟨1, [Slot.live 10, Slot.live 20, Slot.raw], 2, 3⟩ :
      vector Nat) ⟨2, 0⟩ =
      some (.ok ⟨1, [Slot.live 10, Slot.live 99, Slot.live 20], 3, 3⟩
        ⟨2, 0⟩ 1) := by decide
  have h3 := h2.symm.trans hrun
  injection h3 with h4
  injection h4 with h5 h6
  rw [← h5] at hsz hat
  exact ⟨hsz, hat⟩

/-- C8: in every reachable container state (reached through any sequence of
public operations, including ones that failed by a propagated
copy-construction error), `0 ≤ size_ ≤ capacity_`, the allocation holds
exactly `capacity_` slots, exactly the slots `[0, size_)` hold live
elements, and the slots `[size_, capacity_)` are raw. -/
theorem C8_invariant {α : Type} {v : vector α} {m : Mach} (h : Reachable v m) :
    v.size_ ≤ v.capacity_ ∧ v.buf.length = v.capacity_ ∧
    (∀ j, j < v.size_ → isLiveSlot v.buf[j]? = true) ∧
    (∀ j, j < v.capacity_ → v.size_ ≤ j → v.buf[j]? = some Slot.raw) := by
  obtain ⟨⟨h1, h2, h3, h4, h5, h6⟩, _, _⟩ := reachable_inv h
  exact ⟨h2, h1, h4, h5⟩

/-- C8 witness: the invariant read off at the reachable state reached by
`reserve 4` then one `push_back`. -/
theorem C8_witness :
    (⟨1, [Slot.live 9, Slot.raw, Slot.raw, Slot.raw], 1, 4⟩ :
      vector Nat).size_ ≤
      (⟨1, [Slot.live 9, Slot.raw, Slot.raw, Slot.raw], 1, 4⟩ :
        vector Nat).capacity_ ∧
    isLiveSlot (⟨1, [Slot.live 9, Slot.raw, Slot.raw, Slot.raw], 1, 4⟩ :
      vector Nat).buf[0]? = true ∧
    (⟨1, [Slot.live 9, Slot.raw, Slot.raw, Slot.raw], 1, 4⟩ :
      vector Nat).buf[2]? = some Slot.raw := by
  have r1 : Reachable (⟨1, [Slot.raw, Slot.raw, Slot.raw, Slot.raw], 0, 4⟩ :
      vector Nat) ⟨2, 0⟩ :=
    Reachable.reserve_ok 4 (by decide) (Reachable.init 0) (by decide)
  have r2 : Reachable (⟨1, [Slot.live 9, Slot.raw, Slot.raw, Slot.raw], 1, 4⟩ :
      vector Nat) ⟨2, 0⟩ :=
    Reachable.push_back_ok 9 1 r1 (by decide)
  have h := C8_invariant r2
  exact ⟨h.1, h.2.2.1 0 (by decide), h.2.2.2 2 (by decide) (by decide)⟩

/-- C9: `erase(first, last)` on a valid range `f ≤ l ≤ size_` removes
exactly that range: it returns position `f` (which is the new end when the
range reached the end), the size drops by the range length, capacity and
data pointer are unchanged, the elements before `f` stay put and the
surviving elements after `l` are shifted left in order. -/
theorem C9_erase_range {α : Type} {v : vector α} {f l : Nat} (hInv : Inv v)
    (hfl : f ≤ l) (hls : l ≤ v.size_) :
    (erase v f l).2 = f ∧
    (erase v f l).1.size_ = v.size_ - (l - f) ∧
    (erase v f l).1.capacity_ = v.capacity_ ∧
    (erase v f l).1.data_ = v.data_ ∧
    (∀ j, j < f → (erase v f l).1.buf[j]? = v.buf[j]?) ∧
    (∀ k, k < v.size_ - l → (erase v f l).1.buf[f + k]? = v.buf[l + k]?) := by
  obtain ⟨h1, h2, h3, h4, h5, h6, h7⟩ := erase_spec hInv hfl hls
  exact ⟨h1, h4, h3, h2, h5, h6⟩

/-- C9 witness: erasing `[1, 3)` from [10, 20, 30, 40, 50] returns position
1, leaves size 3, and slot 1 now holds 40. -/
theorem C9_witness :
    (erase (⟨1, [Slot.live 10, Slot.live 20, Slot.live 30, Slot.live 40,
      Slot.live 50], 5, 5⟩ : vector Nat) 1 3).2 = 1 ∧
    (erase (⟨1, [Slot.live 10, Slot.live 20, Slot.live 30, Slot.live 40,
      Slot.live 50], 5, 5⟩ : vector Nat) 1 3).1.size_ = 3 ∧
    (erase (⟨1, [Slot.live 10, Slot.live 20, Slot.live 30, Slot.live 40,
      Slot.live 50], 5, 5⟩ : vector Nat) 1 3).1.buf[1]? =
      some (Slot.live 40) := by
  have h := C9_erase_range (v := ⟨1, [Slot.live 10, Slot.live 20,
    Slot.live 30, Slot.live 40, Slot.live 50], 5, 5⟩) (f := 1) (l := 3)
    (by decide) (by decide) (by decide)
  refine ⟨h.1, h.2.1, ?_⟩
  have h2 := h.2.2.2.2.2 0 (by decide)
  simpa using h2

/-- C10: whenever the copy constructor completes (here run with the failure
countdown disarmed), the copy is tight — its capacity equals the SOURCE's
size (not the source's capacity), and its elements equal the source's
elements in order. -/
theorem C10_copy_tight {α : Type} {v : vector α} {m : Mach} (hInv : Inv v)
    (hcd : m.cd = 0) :
    ∃ v1, copy_ctor v m = .ok v1 ⟨m.fresh + 1, 0⟩ ∧
      v1.capacity_ = v.size_ ∧ v1.size_ = v.size_ ∧
      (∀ k, k < v.size_ → v1.buf[k]? = v.buf[k]?) := by
  obtain ⟨hlen, hsz, hw, hlive, hraw, hdata⟩ := hInv
  obtain ⟨d, tr, hcca⟩ := cca_cd0_ok v.size_ (List.replicate v.size_ Slot.raw)
    0 0 v.buf
    (by intro k hk; simpa using hlive k hk)
    (by rw [List.length_replicate]; omega)
  obtain ⟨hb, hl, ho, hc⟩ := cca_ok_spec hcca
  refine ⟨⟨m.fresh, d, v.size_, v.size_⟩, ?_, rfl, rfl, ?_⟩
  · rw [copy_ctor, new_buffer_empty, hcd]
    simp only
    rw [hcca]
  · intro k hk
    simpa using hc k hk

/-- C10 witness: copying a vector of size 2 and capacity 4 yields capacity
2 exactly. -/
theorem C10_witness :
    (⟨2, [Slot.live 4, Slot.live 5], 2, 2⟩ : vector Nat).capacity_ =
      (⟨1, [Slot.live 4, Slot.live 5, Slot.raw, Slot.raw], 2, 4⟩ :
        vector Nat).size_ := by
  obtain ⟨v1, hrun, hcap, hs, hcont⟩ :=
    C10_copy_tight (v := ⟨1, [Slot.live 4, Slot.live 5, Slot.raw, Slot.raw],
      2, 4⟩) (m := ⟨2, 0⟩) (by decide) rfl
  have h2 : copy_ctor (⟨1, [Slot.live 4, Slot.live 5, Slot.raw, Slot.raw],
      2, 4⟩ : vector Nat) ⟨2, 0⟩ =
      .ok ⟨2, [Slot.live 4, Slot.live 5], 2, 2⟩ ⟨3, 0⟩ := by decide
  have h3 := h2.symm.trans hrun
  injection h3 with h4 h5
  rw [h4]
  exact hcap

end VectorModel
